import Mathlib

/-!
Verification of the request/response normalization pipeline of the
health-rumor-detector service (src/app.py).

The embedding models Python strings as lists of unicode code points
(`PyStr`), JSON values as the inductive `Json` (JSON numbers are modelled
as integers; the claims under study never involve fractional numbers,
`NaN`/`Infinity` literals, or surrogate-pair escapes, so those corners of
Python's `json` module are outside the model), Python dicts produced by
`json.loads` as ordered association lists with last-duplicate-wins
insertion (exactly Python's dict construction order), and the upstream
DeepSeek API as an oracle: one `Attempt` per iteration of the retry loop
in `call_model`, each attempt either raising an exception or producing a
`choices[0].message.content` payload (`none` models the `AttributeError`
path of src/app.py lines 78-81).

`json.dumps(..., ensure_ascii=False)` and `json.loads` are modelled by
executable `dumps` and `json_loads` below, following Python's escaping
rules for `dumps` (backslash, quote, the named control escapes, and
`\u00xx` for remaining control characters) and the JSON grammar for
`json_loads` (whitespace skipping, strings with escapes, integers,
literals, arrays, objects).  Corners of Python's `json` module outside
the model, none of which the claims touch: fractional/exponent number
syntax and `NaN`/`Infinity` literals (the number grammar here is decimal
integers), rejection of leading zeros and of raw control characters
inside strings, and `\u` surrogate pairs.  The serializer/parser round
trip is proved (`json_loads_dumps`), which is what the idempotence and
validity claims about the pipeline rest on.
-/

/-- Python strings are sequences of unicode code points. -/
abbrev PyStr := List Char

/-- Turn a Lean string literal into the `PyStr` it denotes. -/
def s2c (s : String) : PyStr := s.data

/-- The four whitespace characters skipped by the JSON grammar (Python's
`json.loads`). -/
def isJsonWs (c : Char) : Bool := c = ' ' || c = '\t' || c = '\n' || c = '\r'

/-- ASCII whitespace stripped by Python's `str.strip()` (the unicode
whitespace extras never occur in the claims studied here). -/
def isPyWs (c : Char) : Bool :=
  c = ' ' || c = '\t' || c = '\n' || c = '\r' || c = '\x0b' || c = '\x0c'

/-- Decimal digit test on a character. -/
def isDigitC (c : Char) : Bool := 48 ≤ c.toNat && c.toNat ≤ 57

/-- Numeric value of a decimal digit character. -/
def digVal (c : Char) : Nat := c.toNat - 48

/-- Decimal digit character for a value below ten. -/
def digCh : Nat → Char
  | 0 => '0' | 1 => '1' | 2 => '2' | 3 => '3' | 4 => '4'
  | 5 => '5' | 6 => '6' | 7 => '7' | 8 => '8' | 9 => '9'
  | _ => '0'

/-- Lowercase hexadecimal digit character, as Python's `json.dumps` emits
in `\u00xx` escapes. -/
def hexDigCh : Nat → Char
  | 0 => '0' | 1 => '1' | 2 => '2' | 3 => '3' | 4 => '4'
  | 5 => '5' | 6 => '6' | 7 => '7' | 8 => '8' | 9 => '9'
  | 10 => 'a' | 11 => 'b' | 12 => 'c' | 13 => 'd' | 14 => 'e' | 15 => 'f'
  | _ => '0'

/-- Value of a hexadecimal digit character (either case), `none` on
non-hex input. -/
def hexVal (c : Char) : Option Nat :=
  if isDigitC c then some (digVal c)
  else if 97 ≤ c.toNat && c.toNat ≤ 102 then some (c.toNat - 87)
  else if 65 ≤ c.toNat && c.toNat ≤ 70 then some (c.toNat - 55)
  else none

mutual
/-- JSON values as produced by Python's `json.loads`: numbers restricted
to integers (see the module comment).  Arrays and objects use the mutual
list types `JArr` and `JObj` so that all recursion stays structural. -/
inductive Json where
  | null
  | bool (b : Bool)
  | num (n : Int)
  | str (s : PyStr)
  | arr (elems : JArr)
  | obj (fields : JObj)
deriving DecidableEq

/-- A JSON array: a list of JSON values. -/
inductive JArr where
  | nil
  | cons (hd : Json) (tl : JArr)
deriving DecidableEq

/-- A JSON object: an ordered association list of key/value pairs, the
order being Python dict insertion order. -/
inductive JObj where
  | nil
  | cons (key : PyStr) (val : Json) (tl : JObj)
deriving DecidableEq
end

/-- Python `d.get(k)` / `d[k]` read: the value at the first occurrence of
the key (objects built by the model have unique keys). -/
def JObj.getKey : JObj → PyStr → Option Json
  | .nil, _ => none
  | .cons k0 v0 fs, k => if k0 = k then some v0 else JObj.getKey fs k

/-- Python `k in d`. -/
def JObj.hasKey : JObj → PyStr → Bool
  | .nil, _ => false
  | .cons k0 _ fs, k => k0 = k || JObj.hasKey fs k

/-- Python `d[k] = v`: replace the value at an existing key in place, or
append a new key at the end — exactly Python dict assignment order. -/
def JObj.setKey : JObj → PyStr → Json → JObj
  | .nil, k, v => .cons k v .nil
  | .cons k0 v0 fs, k, v =>
    if k0 = k then .cons k0 v fs else .cons k0 v0 (JObj.setKey fs k v)

/-- One step of `if key not in parsed: parsed[key] = v` (src/app.py
lines 94-96). -/
def JObj.backfillKey (fs : JObj) (k : PyStr) (v : Json) : JObj :=
  if fs.hasKey k then fs else fs.setKey k v

/-- Fold raw parsed key/value pairs into a dict the way `json.loads`
builds Python dicts: later duplicate keys overwrite in place. -/
def buildDictGo : JObj → JObj → JObj
  | acc, .nil => acc
  | acc, .cons k v fs => buildDictGo (acc.setKey k v) fs

/-- Dict built from raw object fields (last duplicate wins, first
position kept). -/
def buildDict (fs : JObj) : JObj := buildDictGo .nil fs

/-- Python truthiness of a JSON value, as used by `if parsed:` in
src/app.py line 93. -/
def pyTruthy : Json → Bool
  | .null => false
  | .bool b => b
  | .num n => decide (n ≠ 0)
  | .str s => decide (s ≠ [])
  | .arr l => decide (l ≠ JArr.nil)
  | .obj fs => decide (fs ≠ JObj.nil)

/-- Read a key from a JSON value that is an object (`parsed.get(k)`). -/
def Json.jGet : Json → PyStr → Option Json
  | .obj fs, k => fs.getKey k
  | _, _ => none

/-- Keys-without-duplicates test on an object's field list. -/
def nodupKeys : JObj → Bool
  | .nil => true
  | .cons k _ fs => !(JObj.hasKey fs k) && nodupKeys fs

mutual
/-- Well-formedness: every object (at any depth) has duplicate-free keys.
All values produced by `json_loads` satisfy this. -/
def wfJ : Json → Bool
  | .null => true
  | .bool _ => true
  | .num _ => true
  | .str _ => true
  | .arr l => wfA l
  | .obj fs => nodupKeys fs && wfO fs
termination_by structural v => v

/-- Well-formedness of every element of an array. -/
def wfA : JArr → Bool
  | .nil => true
  | .cons x xs => wfJ x && wfA xs
termination_by structural l => l

/-- Well-formedness of every value of an object's field list. -/
def wfO : JObj → Bool
  | .nil => true
  | .cons _ v fs => wfJ v && wfO fs
termination_by structural fs => fs
end

/-- Escaping of one character inside a JSON string, following Python's
`json.dumps(..., ensure_ascii=False)`: backslash and quote, the five
named control escapes, `\u00xx` for the remaining control characters,
everything else verbatim. -/
def escChar (c : Char) : PyStr :=
  if c = '"' then ['\\', '"']
  else if c = '\\' then ['\\', '\\']
  else if c = '\n' then ['\\', 'n']
  else if c = '\t' then ['\\', 't']
  else if c = '\r' then ['\\', 'r']
  else if c = '\x08' then ['\\', 'b']
  else if c = '\x0c' then ['\\', 'f']
  else if c.toNat < 32 then
    ['\\', 'u', '0', '0', hexDigCh (c.toNat / 16), hexDigCh (c.toNat % 16)]
  else [c]

/-- Escape a whole string body. -/
def escStr : PyStr → PyStr
  | [] => []
  | c :: r => escChar c ++ escStr r

/-- Decimal print of a natural number, most significant digit first. -/
def printNat (n : Nat) : PyStr :=
  if n = 0 then ['0'] else ((Nat.digits 10 n).reverse).map digCh

/-- Decimal print of an integer as Python's `json.dumps` emits it. -/
def dumpInt (n : Int) : PyStr :=
  if n < 0 then '-' :: printNat n.natAbs else printNat n.toNat

mutual
/-- Model of `json.dumps(v, ensure_ascii=False)` with Python's default
separators: items joined by a comma and a space, keys followed by a colon
and a space. -/
def dumps : Json → PyStr
  | .null => s2c "null"
  | .bool true => s2c "true"
  | .bool false => s2c "false"
  | .num n => dumpInt n
  | .str s => '"' :: (escStr s ++ ['"'])
  | .arr l => '[' :: (arrInner l ++ [']'])
  | .obj fs => '\x7b' :: (objInner fs ++ ['\x7d'])
termination_by structural v => v

/-- Serialization of the element list of an array, without the brackets. -/
def arrInner : JArr → PyStr
  | .nil => []
  | .cons x xs => dumps x ++ arrRest xs
termination_by structural l => l

/-- Serialization of second-and-later array elements, each preceded by a
comma and a space. -/
def arrRest : JArr → PyStr
  | .nil => []
  | .cons x xs => ',' :: ' ' :: (dumps x ++ arrRest xs)
termination_by structural l => l

/-- Serialization of the field list of an object, without the braces.
Each field is the quoted escaped key, a colon and a space, then the
value. -/
def objInner : JObj → PyStr
  | .nil => []
  | .cons k v fs => '"' :: (escStr k ++ '"' :: ':' :: ' ' :: dumps v) ++ objRest fs
termination_by structural fs => fs

/-- Serialization of second-and-later object fields, each preceded by a
comma and a space. -/
def objRest : JObj → PyStr
  | .nil => []
  | .cons k v fs => ',' :: ' ' :: ('"' :: (escStr k ++ '"' :: ':' :: ' ' :: dumps v) ++ objRest fs)
termination_by structural fs => fs
end

/-- Drop leading JSON whitespace. -/
def skipWs : PyStr → PyStr
  | [] => []
  | c :: r => if isJsonWs c then skipWs r else c :: r

/-- Match a literal character sequence, returning the rest of the input. -/
def expectLit : PyStr → PyStr → Option PyStr
  | [], s => some s
  | c :: l, s =>
    match s with
    | [] => none
    | d :: r => if d = c then expectLit l r else none

/-- Prepend a character to the string component of a parse result. -/
def consFst (c : Char) : Option (PyStr × PyStr) → Option (PyStr × PyStr)
  | none => none
  | some (s, r) => some (c :: s, r)

/-- Parse the body of a JSON string after the opening quote, handling the
escape sequences of the JSON grammar. -/
def parseStrAux : PyStr → Option (PyStr × PyStr)
  | [] => none
  | c :: r =>
    if c = '"' then some ([], r)
    else if c = '\\' then
      match r with
      | [] => none
      | e :: r1 =>
        if e = '"' then consFst '"' (parseStrAux r1)
        else if e = '\\' then consFst '\\' (parseStrAux r1)
        else if e = '/' then consFst '/' (parseStrAux r1)
        else if e = 'n' then consFst '\n' (parseStrAux r1)
        else if e = 't' then consFst '\t' (parseStrAux r1)
        else if e = 'r' then consFst '\r' (parseStrAux r1)
        else if e = 'b' then consFst '\x08' (parseStrAux r1)
        else if e = 'f' then consFst '\x0c' (parseStrAux r1)
        else if e = 'u' then
          match r1 with
          | h1 :: h2 :: h3 :: h4 :: r2 =>
            match hexVal h1, hexVal h2, hexVal h3, hexVal h4 with
            | some a, some b, some c2, some d =>
              consFst (Char.ofNat (((a * 16 + b) * 16 + c2) * 16 + d)) (parseStrAux r2)
            | _, _, _, _ => none
          | _ => none
        else none
    else consFst c (parseStrAux r)

/-- Parse a nonempty run of decimal digits into its value. -/
def parseNumP (s : PyStr) : Option (Nat × PyStr) :=
  let ds := s.takeWhile isDigitC
  if ds = [] then none
  else some (ds.foldl (fun a c => a * 10 + digVal c) 0, s.drop ds.length)

mutual
/-- Recursive-descent JSON value parser.  The fuel argument only bounds
recursion depth; `json_loads` supplies more fuel than any input can
consume. -/
def parseVal : Nat → PyStr → Option (Json × PyStr)
  | 0, _ => none
  | f + 1, s =>
    match skipWs s with
    | [] => none
    | c :: r =>
      if c = '\x7b' then
        match parseObjB f r with
        | some (fs, r1) => some (.obj (buildDict fs), r1)
        | none => none
      else if c = '[' then
        match parseArrB f r with
        | some (l, r1) => some (.arr l, r1)
        | none => none
      else if c = '"' then
        match parseStrAux r with
        | some (body, r1) => some (.str body, r1)
        | none => none
      else if c = 'n' then
        match expectLit ['u', 'l', 'l'] r with
        | some r1 => some (.null, r1)
        | none => none
      else if c = 't' then
        match expectLit ['r', 'u', 'e'] r with
        | some r1 => some (.bool true, r1)
        | none => none
      else if c = 'f' then
        match expectLit ['a', 'l', 's', 'e'] r with
        | some r1 => some (.bool false, r1)
        | none => none
      else if c = '-' then
        match parseNumP r with
        | some (m, r1) => some (.num (-(m : Int)), r1)
        | none => none
      else if isDigitC c then
        match parseNumP (c :: r) with
        | some (m, r1) => some (.num (m : Int), r1)
        | none => none
      else none
termination_by structural f => f

/-- Parse an array body right after the opening bracket. -/
def parseArrB : Nat → PyStr → Option (JArr × PyStr)
  | 0, _ => none
  | f + 1, s =>
    match skipWs s with
    | [] => none
    | c :: r =>
      if c = ']' then some (.nil, r)
      else
        match parseVal f (c :: r) with
        | some (v, r1) =>
          match parseArrC f r1 with
          | some (vs, r2) => some (.cons v vs, r2)
          | none => none
        | none => none
termination_by structural f => f

/-- Parse the continuation of an array: a closing bracket or a comma
followed by another element. -/
def parseArrC : Nat → PyStr → Option (JArr × PyStr)
  | 0, _ => none
  | f + 1, s =>
    match skipWs s with
    | [] => none
    | c :: r =>
      if c = ']' then some (.nil, r)
      else if c = ',' then
        match parseVal f r with
        | some (v, r1) =>
          match parseArrC f r1 with
          | some (vs, r2) => some (.cons v vs, r2)
          | none => none
        | none => none
      else none
termination_by structural f => f

/-- Parse an object body right after the opening brace. -/
def parseObjB : Nat → PyStr → Option (JObj × PyStr)
  | 0, _ => none
  | f + 1, s =>
    match skipWs s with
    | [] => none
    | c :: r =>
      if c = '\x7d' then some (.nil, r)
      else if c = '"' then
        match parseStrAux r with
        | some (k, r1) =>
          match skipWs r1 with
          | [] => none
          | c2 :: r2 =>
            if c2 = ':' then
              match parseVal f r2 with
              | some (v, r3) =>
                match parseObjC f r3 with
                | some (fs, r4) => some (.cons k v fs, r4)
                | none => none
              | none => none
            else none
        | none => none
      else none
termination_by structural f => f

/-- Parse the continuation of an object: a closing brace or a comma
followed by another field. -/
def parseObjC : Nat → PyStr → Option (JObj × PyStr)
  | 0, _ => none
  | f + 1, s =>
    match skipWs s with
    | [] => none
    | c :: r =>
      if c = '\x7d' then some (.nil, r)
      else if c = ',' then
        match skipWs r with
        | [] => none
        | c1 :: r1 =>
          if c1 = '"' then
            match parseStrAux r1 with
            | some (k, r2) =>
              match skipWs r2 with
              | [] => none
              | c2 :: r3 =>
                if c2 = ':' then
                  match parseVal f r3 with
                  | some (v, r4) =>
                    match parseObjC f r4 with
                    | some (fs, r5) => some (.cons k v fs, r5)
                    | none => none
                  | none => none
                else none
            | none => none
          else none
      else none
termination_by structural f => f
end

/-- Model of `json.loads`: parse one value, allow trailing whitespace
only, fail (raise) on anything else.  The fuel bound exceeds what any
input can consume: at most two recursion levels are entered per input
character. -/
def json_loads (s : PyStr) : Option Json :=
  match parseVal (2 * s.length + 2) s with
  | some (v, rest) => if skipWs rest = [] then some v else none
  | none => none

/-- First index of a character, or `none` — `str.find` before its `-1`
encoding. -/
def pyFindN : PyStr → Char → Option Nat
  | [], _ => none
  | x :: xs, c =>
    if x = c then some 0
    else
      match pyFindN xs c with
      | some i => some (i + 1)
      | none => none

/-- Last index of a character, or `none` — `str.rfind` before its `-1`
encoding. -/
def pyRfindN (s : PyStr) (c : Char) : Option Nat :=
  match pyFindN s.reverse c with
  | some i => some (s.length - 1 - i)
  | none => none

/-- Normalize one Python slice endpoint: negative indices count from the
end, and endpoints are clamped to the string. -/
def pyNormIdx (n : Nat) (i : Int) : Nat :=
  (max 0 (min (n : Int) (if i < 0 then i + n else i))).toNat

/-- Python `s[a:b]` for unit step. -/
def pySlice (t : PyStr) (a b : Int) : PyStr :=
  let a1 := pyNormIdx t.length a
  let b1 := pyNormIdx t.length b
  (t.drop a1).take (b1 - a1)

/-- Drop leading Python whitespace. -/
def dropPyWs : PyStr → PyStr
  | [] => []
  | c :: r => if isPyWs c then dropPyWs r else c :: r

/-- Python `str.strip()`: drop whitespace from both ends. -/
def pyStrip (s : PyStr) : PyStr :=
  (dropPyWs (dropPyWs s).reverse).reverse

/-- The brace-heuristic JSON extraction shared by src/app.py lines 84-90
and 143-148: slice from the first opening brace to just past the last
closing brace and parse that substring, `none` when parsing raises. -/
def extract_json (text : PyStr) : Option Json :=
  let s : Int :=
    match pyFindN text '\x7b' with
    | some i => (i : Int)
    | none => -1
  let e : Int :=
    (match pyRfindN text '\x7d' with
     | some j => (j : Int)
     | none => -1) + 1
  json_loads (pySlice text s e)

/-- Key constant for the `conclusion` field. -/
def conclusionK : PyStr := s2c "conclusion"

/-- Key constant for the `explanation` field. -/
def explanationK : PyStr := s2c "explanation"

/-- Key constant for the `sources` field. -/
def sourcesK : PyStr := s2c "sources"

/-- Key constant for the `raw_model_output` field. -/
def rawOutputK : PyStr := s2c "raw_model_output"

/-- Key constant for the request `text` field. -/
def textK : PyStr := s2c "text"

/-- The string "unknown" used as the backfill default. -/
def unknownS : PyStr := s2c "unknown"

/-- The fixed placeholder source object of src/app.py lines 110, 152 and
157. -/
def placeholderSource : Json :=
  .obj (.cons (s2c "title") (.str (s2c "Example Scientific Source"))
    (.cons (s2c "link") (.str (s2c "https://www.ncbi.nlm.nih.gov/pmc/articles/")) .nil))

/-- A one-element sources list holding only the placeholder source. -/
def placeholderSources : Json := .arr (.cons placeholderSource .nil)

/-- Instruction text preceding the user statement in `build_prompt`
(src/app.py lines 30-42). -/
def promptPre : PyStr := s2c "\nYou are a careful medical-information fact-checking assistant.\n\nA user will provide a short statement about a **disease, symptom, treatment, or health claim**.\n\nYour task:\n1) Judge whether the user\x27s statement is **accurate**, **partially correct**, or **medical misinformation (rumor)**.\n2) Provide a short, clear explanation (1–3 sentences) to clarify the truth.\n3) Provide **authoritative reference links ONLY** from scientific papers or recognized medical organizations (e.g., WHO, NIH, CDC, PubMed, Mayo Clinic). \n4) Reply in **STRICT JSON format** with keys: conclusion, explanation, sources (list).\n\nUser statement:\n\"\"\""

/-- Instruction text following the user statement in `build_prompt`
(src/app.py lines 42-58). -/
def promptPost : PyStr := s2c "\"\"\"\n\nRespond strictly in JSON like:\n\x7b\n  \"conclusion\": \"accurate\",\n  \"explanation\": \"Short reason with clarification.\",\n  \"sources\": [\n     \x7b\"title\": \"Relevant Scientific Source\", \"link\": \"https://www.ncbi.nlm.nih.gov/pmc/articles/\"\x7d\n  ]\n\x7d\n\nIMPORTANT:\n- Output must be valid JSON only (no markdown or extra text).\n- Keys and values must use double quotes.\n- Do NOT include comments or trailing commas.\n- Do NOT wrap the JSON in code blocks.\n"

/-- Model of `build_prompt` (src/app.py lines 29-59): the fixed template
with the user text interpolated verbatim. -/
def build_prompt (user_text : PyStr) : PyStr :=
  promptPre ++ user_text ++ promptPost

/-- One iteration of the retry loop in `call_model`: the upstream call
either raises an exception (whose text becomes `last_error`) or returns a
payload; `reply none` models the missing-content `AttributeError` path
that sets the text to the empty string (src/app.py lines 78-81). -/
inductive Attempt where
  | fail (e : PyStr)
  | reply (content : Option PyStr)

/-- Field list of the synthesized fallback payload of src/app.py lines
107-111; `lastErr` is `last_error` when one was captured and the empty
string otherwise. -/
def invoker_fields (lastErr : Option PyStr) : JObj :=
  .cons conclusionK (.str unknownS)
    (.cons explanationK
      (.str (s2c "DeepSeek API 调用失败或模型返回不可解析: " ++ lastErr.getD []))
    (.cons sourcesK placeholderSources .nil))

/-- The synthesized fallback payload returned when every attempt is
exhausted (src/app.py lines 107-111). -/
def invoker_fallback (lastErr : Option PyStr) : Json :=
  .obj (invoker_fields lastErr)

/-- The key backfill loop of src/app.py lines 94-96: any of the three
required keys that is absent is added (at the end, in loop order), with
`sources` defaulting to the empty list and the other two to "unknown".
Only reachable with an object (`extract_json` never succeeds with
anything else). -/
def backfill : Json → Json
  | .obj fs =>
    .obj (((fs.backfillKey conclusionK (.str unknownS)).backfillKey
      explanationK (.str unknownS)).backfillKey sourcesK (.arr .nil))
  | other => other

/-- The retry loop of `call_model` (src/app.py lines 68-104): walk the
attempts, remembering the last exception text; a payload whose extracted
JSON is truthy is backfilled, re-serialized and returned at once
(the `Bool` is true when a response object accompanies the string); when
the attempts run out the fallback payload is returned with `None`
(src/app.py lines 107-111). -/
def call_model_go : List Attempt → Option PyStr → PyStr × Bool
  | [], lastErr => (dumps (invoker_fallback lastErr), false)
  | a :: rest, lastErr =>
    match a with
    | .fail e => call_model_go rest (some e)
    | .reply co =>
      let text :=
        match co with
        | none => []
        | some c => pyStrip c
      match extract_json text with
      | some parsed =>
        if pyTruthy parsed then (dumps (backfill parsed), true)
        else call_model_go rest lastErr
      | none => call_model_go rest lastErr

/-- Model of `call_model` (src/app.py lines 62-111).  The prompt does not
influence the oracle-modelled upstream; the attempt list has
`retries + 1` entries (three under the default budget). -/
def call_model (_prompt : PyStr) (attempts : List Attempt) : PyStr × Bool :=
  call_model_go attempts none

/-- Field list of the fallback object substituted by `analyze` when its
own parse of the model text raises (src/app.py lines 148-153). -/
def analyze_fallback_fields : JObj :=
  .cons conclusionK (.str unknownS)
    (.cons explanationK (.str (s2c "模型返回不可解析的结果。"))
    (.cons sourcesK placeholderSources .nil))

/-- The fallback object substituted by `analyze` when its own parse of
the model text raises (src/app.py lines 148-153). -/
def analyze_fallback : Json :=
  .obj analyze_fallback_fields

/-- Test for the values `(None, [], "")` against which
`parsed.get("sources")` is compared on src/app.py line 156 (`none` is the
absent-key case, which `dict.get` also maps to `None`). -/
def bad_sources : Option Json → Bool
  | none => true
  | some .null => true
  | some (.arr .nil) => true
  | some (.str []) => true
  | some _ => false

/-- The sources invariant of src/app.py lines 155-157: a `sources` value
that is `None`, the empty list or the empty string — or an absent key —
is replaced by the single placeholder source. -/
def sources_fix : Json → Json
  | .obj fs =>
    if bad_sources (fs.getKey sourcesK) then .obj (fs.setKey sourcesK placeholderSources)
    else .obj fs
  | other => other

/-- The extraction-and-normalization step of `analyze` (src/app.py lines
143-157): extract JSON with the brace heuristic, substitute the fallback
object when that raises, then enforce the sources invariant. -/
def normalize_output (model_text : PyStr) : Json :=
  sources_fix ((extract_json model_text).getD analyze_fallback)

/-- Exceptions that can escape the `analyze` handler in the modelled
scenarios: `str.strip` on a non-string (src/app.py line 131) and a
filesystem error from `append_log` (src/app.py line 172). -/
inductive PyErr where
  | attributeError
  | fsError
deriving DecidableEq

/-- The CSV header row written on first use of the log (src/app.py lines
118-120). -/
def csvHeader : List PyStr := [s2c "timestamp", s2c "user_text", s2c "result"]

/-- Model of `append_log` (src/app.py lines 115-121) at row granularity
(the `csv` module's field quoting, which makes one written row parse back
as one row of three columns, is abstracted): a missing file gets the
header row first, then the data row is appended. -/
def append_log (file : Option (List (List PyStr))) (row : List PyStr) :
    Option (List (List PyStr)) :=
  match file with
  | none => some [csvHeader, row]
  | some rows => some (rows ++ [row])

/-- The error body of the 400 response (src/app.py line 133). -/
def err400Body : Json :=
  .obj (.cons (s2c "error") (.str (s2c "No text provided.")) .nil)

/-- Observable outcome of one request to POST /analyze: the response (or
escaped exception), whether `call_model` was invoked, and the log file
state afterwards. -/
structure AnalyzeOut where
  resp : Except PyErr (Nat × Json)
  modelInvoked : Bool
  log : Option (List (List PyStr))

/-- The result object built by `analyze` for non-blank text (src/app.py
lines 137-164): the model is called, its output normalized, and the four
response fields assembled (`dict.get` maps an absent key to `None`,
serialized as JSON null). -/
def analyze_result (ut : PyStr) (attempts : List Attempt) : Json :=
  let model_text := (call_model (build_prompt ut) attempts).1
  let parsed := normalize_output model_text
  .obj (.cons conclusionK ((parsed.jGet conclusionK).getD .null)
    (.cons explanationK ((parsed.jGet explanationK).getD .null)
    (.cons sourcesK ((parsed.jGet sourcesK).getD .null)
    (.cons rawOutputK (.str model_text) .nil))))

/-- Model of the `analyze` handler (src/app.py lines 128-174).  `data` is
the parsed request body (a JSON object), `attempts` the upstream oracle,
`fsOk` whether the log append succeeds, `file` the log state before the
call and `now` the timestamp string.  `data.get("text", "")` defaults to
the empty string; calling `.strip()` on a non-string raises
`AttributeError`; blank text short-circuits to the 400 response before
any prompt is built or model call made; otherwise the model text is
normalized into the result object, logged, and returned with status 200 —
a failing log append propagates instead of reaching the 200 return.  The
`except` arm of src/app.py lines 139-140 (the 500 response) has no
counterpart here because `call_model` never raises: in the embedding it
is a total function of the attempt oracle. -/
def analyze (data : JObj) (attempts : List Attempt) (fsOk : Bool)
    (file : Option (List (List PyStr))) (now : PyStr) : AnalyzeOut :=
  match (data.getKey textK).getD (.str []) with
  | .str s =>
    let user_text := pyStrip s
    if user_text = [] then
      { resp := .ok (400, err400Body), modelInvoked := false, log := file }
    else
      let result := analyze_result user_text attempts
      let row := [now, user_text, dumps result]
      if fsOk then
        { resp := .ok (200, result), modelInvoked := true, log := append_log file row }
      else
        { resp := .error .fsError, modelInvoked := true, log := file }
  | _ => { resp := .error .attributeError, modelInvoked := false, log := file }

/-- One endpoint call's inputs, for iterating the handler. -/
structure CallSpec where
  data : JObj
  attempts : List Attempt
  fsOk : Bool
  now : PyStr

/-- Run a sequence of endpoint calls, threading the log file state. -/
def run_calls : List CallSpec → Option (List (List PyStr)) → Option (List (List PyStr))
  | [], file => file
  | c :: cs, file => run_calls cs (analyze c.data c.attempts c.fsOk file c.now).log

mutual
/-- Fuel consumed by the parser on the serialization of a value, used to
bound the recursion depth in the round-trip proof. -/
def sizeJ : Json → Nat
  | .null => 1
  | .bool _ => 1
  | .num _ => 1
  | .str _ => 1
  | .arr l => 1 + sizeA l
  | .obj fs => 1 + sizeO fs
termination_by structural v => v

/-- Fuel consumed parsing an array's element list. -/
def sizeA : JArr → Nat
  | .nil => 1
  | .cons x xs => 1 + sizeJ x + sizeA xs
termination_by structural l => l

/-- Fuel consumed parsing an object's field list. -/
def sizeO : JObj → Nat
  | .nil => 1
  | .cons _ v fs => 1 + sizeJ v + sizeO fs
termination_by structural fs => fs
end

/-- Continuations after which a serialized number can be re-read without
absorbing following characters: the empty string or a non-digit head. -/
def numOkB : PyStr → Bool
  | [] => true
  | c :: _ => !(isDigitC c)

/-- Concatenation of field lists (proof support for the dict lemmas). -/
def JObj.appendO : JObj → JObj → JObj
  | .nil, g => g
  | .cons k v fs, g => .cons k v (JObj.appendO fs g)

/-- No key of the second field list occurs in the first (proof support
for the dict lemmas). -/
def disjointO : JObj → JObj → Bool
  | _, .nil => true
  | acc, .cons k _ fs => !(acc.hasKey k) && disjointO acc fs

theorem skipWs_cons_not (c : Char) (r : PyStr) (h : isJsonWs c = false) :
    skipWs (c :: r) = c :: r := by
  simp [skipWs, h]

theorem skipWs_cons_ws (c : Char) (r : PyStr) (h : isJsonWs c = true) :
    skipWs (c :: r) = skipWs r := by
  simp [skipWs, h]

theorem digVal_digCh (d : Nat) (h : d < 10) : digVal (digCh d) = d := by
  interval_cases d <;> rfl

theorem isDigitC_digCh (d : Nat) (h : d < 10) : isDigitC (digCh d) = true := by
  interval_cases d <;> rfl

theorem digit_ne (c : Char) (h : isDigitC c = true) (d : Char) (hd : isDigitC d = false) :
    c ≠ d := by
  intro e
  subst e
  rw [h] at hd
  exact Bool.noConfusion hd

theorem digit_not_ws (c : Char) (h : isDigitC c = true) : isJsonWs c = false := by
  have h1 : c ≠ ' ' := digit_ne c h ' ' (by decide)
  have h2 : c ≠ '\t' := digit_ne c h '\t' (by decide)
  have h3 : c ≠ '\n' := digit_ne c h '\n' (by decide)
  have h4 : c ≠ '\r' := digit_ne c h '\r' (by decide)
  simp [isJsonWs, h1, h2, h3, h4]

theorem printNat_digits (n : Nat) : ∀ c ∈ printNat n, isDigitC c = true := by
  intro c hc
  unfold printNat at hc
  by_cases h : n = 0
  · simp [h] at hc
    subst hc
    rfl
  · simp only [h, if_false, List.mem_map, List.mem_reverse] at hc
    obtain ⟨d, hd, rfl⟩ := hc
    exact isDigitC_digCh d (Nat.digits_lt_base (by norm_num) hd)

theorem printNat_ne_nil (n : Nat) : printNat n ≠ [] := by
  unfold printNat
  by_cases h : n = 0
  · simp [h]
  · simp only [h, if_false]
    intro hcon
    rw [List.map_eq_nil_iff, List.reverse_eq_nil_iff] at hcon
    exact (Nat.digits_ne_nil_iff_ne_zero.mpr h) hcon

theorem takeWhile_append_all (p : Char → Bool) (a b : PyStr)
    (h : ∀ c ∈ a, p c = true) :
    List.takeWhile p (a ++ b) = a ++ List.takeWhile p b := by
  induction a with
  | nil => simp
  | cons c r ih =>
    have hc : p c = true := h c (by simp)
    have hr := ih (fun x hx => h x (by simp [hx]))
    simp [List.takeWhile_cons, hc, hr]

theorem takeWhile_numOk (b : PyStr) (h : numOkB b = true) :
    List.takeWhile isDigitC b = [] := by
  cases b with
  | nil => rfl
  | cons c r =>
    simp only [numOkB, Bool.not_eq_true'] at h
    simp [List.takeWhile_cons, h]

theorem foldl_digits_aux (L : List Nat) :
    ∀ acc : Nat, (∀ d ∈ L, d < 10) →
      List.foldl (fun a d => a * 10 + digVal (digCh d)) acc L.reverse
        = acc * 10 ^ L.length + Nat.ofDigits 10 L := by
  induction L with
  | nil => intro acc _; simp [Nat.ofDigits_nil]
  | cons d L ih =>
    intro acc h
    have hd : d < 10 := h d (by simp)
    have hL : ∀ x ∈ L, x < 10 := fun x hx => h x (by simp [hx])
    simp only [List.reverse_cons, List.foldl_append, List.foldl_cons, List.foldl_nil]
    rw [ih acc hL, digVal_digCh d hd, Nat.ofDigits_cons, List.length_cons, pow_succ]
    ring

theorem foldl_printNat (n : Nat) :
    (printNat n).foldl (fun a c => a * 10 + digVal c) 0 = n := by
  unfold printNat
  by_cases h : n = 0
  · subst h
    rfl
  · simp only [h, if_false]
    rw [List.foldl_map]
    have hb : ∀ d ∈ Nat.digits 10 n, d < 10 := fun d hd => Nat.digits_lt_base (by norm_num) hd
    rw [foldl_digits_aux (Nat.digits 10 n) 0 hb]
    simp [Nat.ofDigits_digits]

theorem parseNumP_printNat (n : Nat) (rest : PyStr) (h : numOkB rest = true) :
    parseNumP (printNat n ++ rest) = some (n, rest) := by
  have htw : (printNat n ++ rest).takeWhile isDigitC = printNat n := by
    rw [takeWhile_append_all isDigitC (printNat n) rest (printNat_digits n),
      takeWhile_numOk rest h, List.append_nil]
  simp only [parseNumP, htw, printNat_ne_nil n, if_false, List.drop_left,
    foldl_printNat n]

theorem hexVal_hexDigCh (m : Nat) (h : m < 16) : hexVal (hexDigCh m) = some m := by
  interval_cases m <;> rfl

theorem parseStrAux_rt : ∀ (s rest : PyStr),
    parseStrAux (escStr s ++ '"' :: rest) = some (s, rest) := by
  intro s
  induction s with
  | nil =>
    intro rest
    simp only [escStr, List.nil_append]
    rw [parseStrAux.eq_def]
    simp
  | cons c cs ih =>
    intro rest
    simp only [escStr, List.append_assoc]
    by_cases h1 : c = '"'
    · subst h1
      simp only [escChar, if_pos rfl]
      rw [parseStrAux.eq_def]
      simp [consFst, ih]
    by_cases h2 : c = '\\'
    · subst h2
      simp only [escChar]
      norm_num
      rw [parseStrAux.eq_def]
      simp [consFst, ih]
    by_cases h3 : c = '\n'
    · subst h3
      simp only [escChar]
      norm_num
      rw [parseStrAux.eq_def]
      simp [consFst, ih]
    by_cases h4 : c = '\t'
    · subst h4
      simp only [escChar]
      norm_num
      rw [parseStrAux.eq_def]
      simp [consFst, ih]
    by_cases h5 : c = '\r'
    · subst h5
      simp only [escChar]
      norm_num
      rw [parseStrAux.eq_def]
      simp [consFst, ih]
    by_cases h6 : c = '\x08'
    · subst h6
      simp only [escChar]
      norm_num
      rw [parseStrAux.eq_def]
      simp [consFst, ih]
    by_cases h7 : c = '\x0c'
    · subst h7
      simp only [escChar]
      norm_num
      rw [parseStrAux.eq_def]
      simp [consFst, ih]
    by_cases h8 : c.toNat < 32
    · have e16 : c.toNat / 16 < 16 := by omega
      have e16b : c.toNat % 16 < 16 := Nat.mod_lt _ (by norm_num)
      have hx := hexVal_hexDigCh (c.toNat / 16) e16
      have hy := hexVal_hexDigCh (c.toNat % 16) e16b
      have hv0 : hexVal '0' = some 0 := rfl
      have hval : ((0 * 16 + 0) * 16 + c.toNat / 16) * 16 + c.toNat % 16 = c.toNat := by
        omega
      simp only [escChar, h1, h2, h3, h4, h5, h6, h7, h8, if_false, if_pos, if_true]
      rw [parseStrAux.eq_def]
      simp [hx, hy, hv0, hval, consFst, ih]
      rw [show c.toNat / 16 * 16 + c.toNat % 16 = c.toNat by omega, Char.ofNat_toNat]
    · simp only [escChar, h1, h2, h3, h4, h5, h6, h7, h8, if_false]
      rw [parseStrAux.eq_def]
      simp [h1, h2, consFst, ih]

/-- Structural induction principle for `JObj` (the induction tactic does
not handle mutual inductives directly). -/
theorem jobjInduction (motive : JObj → Prop) (hnil : motive .nil)
    (hcons : ∀ k v fs, motive fs → motive (.cons k v fs)) : ∀ fs, motive fs
  | .nil => hnil
  | .cons k v fs => hcons k v fs (jobjInduction motive hnil hcons fs)
termination_by structural fs => fs

/-- Structural induction principle for `JArr`. -/
theorem jarrInduction (motive : JArr → Prop) (hnil : motive .nil)
    (hcons : ∀ x xs, motive xs → motive (.cons x xs)) : ∀ l, motive l
  | .nil => hnil
  | .cons x xs => hcons x xs (jarrInduction motive hnil hcons xs)
termination_by structural l => l

theorem hasKey_setKey (fs : JObj) (k : PyStr) (v : Json) (k1 : PyStr) :
    (fs.setKey k v).hasKey k1 = (fs.hasKey k1 || decide (k1 = k)) := by
  induction fs using jobjInduction with
  | hnil =>
    by_cases h : k = k1
    · subst h
      simp [JObj.setKey, JObj.hasKey]
    · have hs : ¬k1 = k := fun e => h e.symm
      simp [JObj.setKey, JObj.hasKey, h, hs]
  | hcons k0 v0 fs ih =>
    by_cases h : k0 = k
    · subst h
      by_cases h1 : k0 = k1
      · subst h1
        simp [JObj.setKey, JObj.hasKey]
      · have h1s : ¬k1 = k0 := fun e => h1 e.symm
        simp [JObj.setKey, JObj.hasKey, h1, h1s]
    · simp only [JObj.setKey, if_neg h, JObj.hasKey, ih, Bool.or_assoc]

theorem getKey_setKey_self (fs : JObj) (k : PyStr) (v : Json) :
    (fs.setKey k v).getKey k = some v := by
  induction fs using jobjInduction with
  | hnil => simp [JObj.setKey, JObj.getKey]
  | hcons k0 v0 fs ih =>
    by_cases h : k0 = k
    · subst h
      simp [JObj.setKey, JObj.getKey]
    · simp [JObj.setKey, JObj.getKey, h, ih]

theorem nodup_setKey (fs : JObj) (k : PyStr) (v : Json)
    (h : nodupKeys fs = true) : nodupKeys (fs.setKey k v) = true := by
  induction fs using jobjInduction with
  | hnil => simp [JObj.setKey, nodupKeys, JObj.hasKey]
  | hcons k0 v0 fs ih =>
    simp only [nodupKeys, Bool.and_eq_true, Bool.not_eq_true'] at h
    by_cases hk : k0 = k
    · subst hk
      simp [JObj.setKey, nodupKeys, h.1, h.2]
    · simp only [JObj.setKey, if_neg hk, nodupKeys, hasKey_setKey, h.1,
        Bool.false_or, Bool.and_eq_true, Bool.not_eq_true']
      refine ⟨?_, ih h.2⟩
      simp [fun h2 : k0 = k => hk h2]

theorem wfO_setKey (fs : JObj) (k : PyStr) (v : Json)
    (h : wfO fs = true) (hv : wfJ v = true) : wfO (fs.setKey k v) = true := by
  induction fs using jobjInduction with
  | hnil => simp [JObj.setKey, wfO, hv]
  | hcons k0 v0 fs ih =>
    simp only [wfO, Bool.and_eq_true] at h
    by_cases hk : k0 = k
    · subst hk
      simp [JObj.setKey, wfO, hv, h.2]
    · simp only [JObj.setKey, if_neg hk, wfO, Bool.and_eq_true]
      exact ⟨h.1, ih h.2⟩

theorem appendO_nil (fs : JObj) : fs.appendO .nil = fs := by
  induction fs using jobjInduction with
  | hnil => rfl
  | hcons k v fs ih => simp [JObj.appendO, ih]

theorem appendO_assoc (a b c : JObj) :
    (a.appendO b).appendO c = a.appendO (b.appendO c) := by
  induction a using jobjInduction with
  | hnil => rfl
  | hcons k v fs ih => simp [JObj.appendO, ih]

theorem disjointO_nil_left (fs : JObj) : disjointO .nil fs = true := by
  induction fs using jobjInduction with
  | hnil => rfl
  | hcons k v fs ih => simp [disjointO, JObj.hasKey, ih]

theorem disjointO_setKey (acc fs : JObj) (k : PyStr) (v : Json)
    (h : disjointO acc fs = true) (hk : fs.hasKey k = false) :
    disjointO (acc.setKey k v) fs = true := by
  induction fs using jobjInduction with
  | hnil => rfl
  | hcons k1 v1 fs ih =>
    simp only [disjointO, Bool.and_eq_true, Bool.not_eq_true'] at h
    simp only [JObj.hasKey, Bool.or_eq_false_iff, decide_eq_false_iff_not] at hk
    simp only [disjointO, Bool.and_eq_true, Bool.not_eq_true', hasKey_setKey,
      Bool.or_eq_false_iff, decide_eq_false_iff_not]
    exact ⟨⟨h.1, hk.1⟩, ih h.2 hk.2⟩

theorem setKey_absent_append (acc : JObj) (k : PyStr) (v : Json)
    (h : acc.hasKey k = false) : acc.setKey k v = acc.appendO (.cons k v .nil) := by
  induction acc using jobjInduction with
  | hnil => rfl
  | hcons k0 v0 fs ih =>
    simp only [JObj.hasKey, Bool.or_eq_false_iff, decide_eq_false_iff_not] at h
    simp [JObj.setKey, h.1, JObj.appendO, ih h.2]

theorem buildDictGo_disjoint (fs : JObj) :
    ∀ acc : JObj, disjointO acc fs = true → nodupKeys fs = true →
      buildDictGo acc fs = acc.appendO fs := by
  induction fs using jobjInduction with
  | hnil => intro acc _ _; rw [buildDictGo, appendO_nil]
  | hcons k v fs ih =>
    intro acc hd hn
    simp only [disjointO, Bool.and_eq_true, Bool.not_eq_true'] at hd
    simp only [nodupKeys, Bool.and_eq_true, Bool.not_eq_true'] at hn
    rw [buildDictGo, ih (acc.setKey k v) (disjointO_setKey acc fs k v hd.2 hn.1) hn.2,
      setKey_absent_append acc k v hd.1, appendO_assoc]
    rfl

theorem buildDict_nodup_id (fs : JObj) (h : nodupKeys fs = true) :
    buildDict fs = fs := by
  rw [buildDict, buildDictGo_disjoint fs .nil (disjointO_nil_left fs) h]
  rfl

theorem nodup_buildDictGo (fs : JObj) :
    ∀ acc : JObj, nodupKeys acc = true → nodupKeys (buildDictGo acc fs) = true := by
  induction fs using jobjInduction with
  | hnil => intro acc h; rw [buildDictGo]; exact h
  | hcons k v fs ih =>
    intro acc h
    rw [buildDictGo]
    exact ih _ (nodup_setKey acc k v h)

theorem wfO_buildDictGo (fs : JObj) :
    ∀ acc : JObj, wfO fs = true → wfO acc = true → wfO (buildDictGo acc fs) = true := by
  induction fs using jobjInduction with
  | hnil => intro acc _ h; rw [buildDictGo]; exact h
  | hcons k v fs ih =>
    intro acc hf ha
    simp only [wfO, Bool.and_eq_true] at hf
    rw [buildDictGo]
    exact ih _ hf.2 (wfO_setKey acc k v ha hf.1)

theorem wfJ_buildDict (fs : JObj) (h : wfO fs = true) :
    wfJ (.obj (buildDict fs)) = true := by
  simp only [wfJ, Bool.and_eq_true]
  exact ⟨nodup_buildDictGo fs .nil rfl, wfO_buildDictGo fs .nil h rfl⟩

theorem expectLit_rt (l : PyStr) : ∀ rest : PyStr, expectLit l (l ++ rest) = some rest := by
  induction l with
  | nil => intro rest; rfl
  | cons c t ih => intro rest; simp [expectLit, ih]

theorem printNat_head (m : Nat) :
    ∃ c t, printNat m = c :: t ∧ isDigitC c = true := by
  cases hp : printNat m with
  | nil => exact absurd hp (printNat_ne_nil m)
  | cons c t =>
    refine ⟨c, t, rfl, printNat_digits m c ?_⟩
    rw [hp]
    simp

theorem sizeJ_pos : ∀ v : Json, 1 ≤ sizeJ v := by
  intro v
  cases v <;> simp [sizeJ]

theorem sizeA_pos : ∀ l : JArr, 1 ≤ sizeA l := by
  intro l
  cases l with
  | nil => simp [sizeA]
  | cons x xs => simp only [sizeA]; omega

theorem sizeO_pos : ∀ fs : JObj, 1 ≤ sizeO fs := by
  intro fs
  cases fs with
  | nil => simp [sizeO]
  | cons k v fs => simp only [sizeO]; omega

theorem dumps_head (v : Json) :
    ∃ c t, dumps v = c :: t ∧ isJsonWs c = false ∧ c ≠ ']' ∧ c ≠ '\x7d' := by
  have hchar : ∀ c : Char, isDigitC c = true ∨
      c ∈ ['n', 't', 'f', '-', '"', '[', '\x7b'] →
      isJsonWs c = false ∧ c ≠ ']' ∧ c ≠ '\x7d' := by
    rintro c (hd | hm)
    · exact ⟨digit_not_ws c hd, digit_ne c hd ']' (by decide),
        digit_ne c hd '\x7d' (by decide)⟩
    · fin_cases hm <;> refine ⟨by decide, by decide, by decide⟩
  cases v with
  | num n =>
    by_cases hn : n < 0
    · refine ⟨'-', printNat n.natAbs, by simp [dumps, dumpInt, hn],
        hchar '-' (Or.inr (by decide))⟩
    · obtain ⟨c, t, hct, hc⟩ := printNat_head n.toNat
      refine ⟨c, t, by simp [dumps, dumpInt, hn, hct], hchar c (Or.inl hc)⟩
  | null => exact ⟨'n', _, rfl, hchar 'n' (Or.inr (by decide))⟩
  | bool b =>
    cases b
    · exact ⟨'f', _, rfl, hchar 'f' (Or.inr (by decide))⟩
    · exact ⟨'t', _, rfl, hchar 't' (Or.inr (by decide))⟩
  | str s => exact ⟨'"', _, rfl, hchar '"' (Or.inr (by decide))⟩
  | arr l => exact ⟨'[', _, rfl, hchar '[' (Or.inr (by decide))⟩
  | obj fs => exact ⟨'\x7b', _, rfl, hchar '\x7b' (Or.inr (by decide))⟩

theorem numOk_arrRest (xs : JArr) (rest : PyStr) :
    numOkB (arrRest xs ++ ']' :: rest) = true := by
  cases xs with
  | nil => rfl
  | cons x xs => rfl

theorem numOk_objRest (fs : JObj) (rest : PyStr) :
    numOkB (objRest fs ++ '\x7d' :: rest) = true := by
  cases fs with
  | nil => rfl
  | cons k v fs => rfl

theorem parseVal_ws_eq (f : Nat) (s1 s2 : PyStr) (h : skipWs s1 = skipWs s2) :
    parseVal f s1 = parseVal f s2 := by
  cases f with
  | zero => rfl
  | succ f =>
    rw [parseVal.eq_def, parseVal.eq_def]
    dsimp only
    rw [h]

theorem skipWs_space (z : PyStr) : skipWs (' ' :: z) = skipWs z :=
  skipWs_cons_ws ' ' z (by decide)

mutual
theorem rtV : ∀ (f : Nat) (v : Json) (rest : PyStr), wfJ v = true → numOkB rest = true →
    sizeJ v ≤ f → parseVal f (dumps v ++ rest) = some (v, rest)
  | 0, v, rest => by
    intro _ _ hsz
    have := sizeJ_pos v
    omega
  | f + 1, v, rest => by
    intro hwf hnum hsz
    cases v with
    | null =>
      have hin : dumps Json.null ++ rest = 'n' :: 'u' :: 'l' :: 'l' :: rest := rfl
      rw [parseVal.eq_def]
      try dsimp only
      rw [hin, skipWs_cons_not _ _ (by decide)]
      simp [expectLit]
    | bool b =>
      cases b with
      | true =>
        have hin : dumps (Json.bool true) ++ rest = 't' :: 'r' :: 'u' :: 'e' :: rest := rfl
        rw [parseVal.eq_def]
        try dsimp only
        rw [hin, skipWs_cons_not _ _ (by decide)]
        simp [expectLit]
      | false =>
        have hin : dumps (Json.bool false) ++ rest = 'f' :: 'a' :: 'l' :: 's' :: 'e' :: rest := rfl
        rw [parseVal.eq_def]
        try dsimp only
        rw [hin, skipWs_cons_not _ _ (by decide)]
        simp [expectLit]
    | str s =>
      have hin : dumps (Json.str s) ++ rest = '"' :: (escStr s ++ '"' :: rest) := by
        simp [dumps]
      rw [parseVal.eq_def]
      try dsimp only
      rw [hin, skipWs_cons_not _ _ (by decide)]
      simp [parseStrAux_rt]
    | num n =>
      by_cases hn : n < 0
      · have hin : dumps (Json.num n) ++ rest = '-' :: (printNat n.natAbs ++ rest) := by
          simp [dumps, dumpInt, hn]
        rw [parseVal.eq_def]
        try dsimp only
        rw [hin, skipWs_cons_not _ _ (by decide)]
        try dsimp only
        rw [if_neg (by decide : ¬('-' : Char) = '\x7b'),
          if_neg (by decide : ¬('-' : Char) = '['),
          if_neg (by decide : ¬('-' : Char) = '"'),
          if_neg (by decide : ¬('-' : Char) = 'n'),
          if_neg (by decide : ¬('-' : Char) = 't'),
          if_neg (by decide : ¬('-' : Char) = 'f'),
          if_pos rfl, parseNumP_printNat n.natAbs rest hnum]
        have hval : -((n.natAbs : Nat) : Int) = n := by omega
        try dsimp only
        rw [hval]
      · obtain ⟨c, t, hct, hdig⟩ := printNat_head n.toNat
        have hin : dumps (Json.num n) ++ rest = c :: (t ++ rest) := by
          simp [dumps, dumpInt, hn, hct]
        rw [parseVal.eq_def]
        try dsimp only
        rw [hin, skipWs_cons_not _ _ (digit_not_ws c hdig)]
        try dsimp only
        rw [if_neg (digit_ne c hdig '\x7b' (by decide)),
          if_neg (digit_ne c hdig '[' (by decide)),
          if_neg (digit_ne c hdig '"' (by decide)),
          if_neg (digit_ne c hdig 'n' (by decide)),
          if_neg (digit_ne c hdig 't' (by decide)),
          if_neg (digit_ne c hdig 'f' (by decide)),
          if_neg (digit_ne c hdig '-' (by decide)),
          if_pos hdig]
        have hback : c :: (t ++ rest) = printNat n.toNat ++ rest := by
          rw [hct]
          rfl
        rw [hback, parseNumP_printNat n.toNat rest hnum]
        have hval : ((n.toNat : Nat) : Int) = n := by omega
        try dsimp only
        rw [hval]
    | arr l =>
      have hin : dumps (Json.arr l) ++ rest = '[' :: (arrInner l ++ ']' :: rest) := by
        simp [dumps]
      rw [parseVal.eq_def]
      try dsimp only
      rw [hin, skipWs_cons_not _ _ (by decide)]
      try dsimp only
      rw [if_neg (by decide : ¬('[' : Char) = '\x7b'), if_pos rfl]
      have hwfl : wfA l = true := by simpa [wfJ] using hwf
      have hszl : sizeA l ≤ f := by
        simp only [sizeJ] at hsz
        omega
      rw [rtAB f l rest hwfl hszl]
    | obj fs =>
      have hin : dumps (Json.obj fs) ++ rest = '\x7b' :: (objInner fs ++ '\x7d' :: rest) := by
        simp [dumps]
      rw [parseVal.eq_def]
      try dsimp only
      rw [hin, skipWs_cons_not _ _ (by decide)]
      try dsimp only
      rw [if_pos rfl]
      have hparts : nodupKeys fs = true ∧ wfO fs = true := by
        simpa [wfJ, Bool.and_eq_true] using hwf
      have hszo : sizeO fs ≤ f := by
        simp only [sizeJ] at hsz
        omega
      rw [rtOB f fs rest hparts.2 hszo]
      try dsimp only
      rw [buildDict_nodup_id fs hparts.1]
termination_by structural f => f

theorem rtAB : ∀ (f : Nat) (l : JArr) (rest : PyStr), wfA l = true →
    sizeA l ≤ f → parseArrB f (arrInner l ++ ']' :: rest) = some (l, rest)
  | 0, l, rest => by
    intro _ hsz
    have := sizeA_pos l
    omega
  | f + 1, l, rest => by
    intro hwf hsz
    cases l with
    | nil =>
      rw [parseArrB.eq_def]
      try dsimp only
      rw [show arrInner JArr.nil ++ ']' :: rest = ']' :: rest from rfl,
        skipWs_cons_not _ _ (by decide)]
      try dsimp only
      rw [if_pos rfl]
    | cons x xs =>
      obtain ⟨c, t, hct, hnws, hbr, hbc⟩ := dumps_head x
      have hin : arrInner (JArr.cons x xs) ++ ']' :: rest
          = c :: (t ++ (arrRest xs ++ ']' :: rest)) := by
        simp [arrInner, hct]
      rw [parseArrB.eq_def]
      try dsimp only
      rw [hin, skipWs_cons_not _ _ hnws]
      try dsimp only
      rw [if_neg hbr]
      have hx : wfJ x = true ∧ wfA xs = true := by
        simpa [wfA, Bool.and_eq_true] using hwf
      have hszx : sizeJ x ≤ f := by
        have := sizeA_pos xs
        simp only [sizeA] at hsz
        omega
      have hszxs : sizeA xs ≤ f := by
        have := sizeJ_pos x
        simp only [sizeA] at hsz
        omega
      have hcall : c :: (t ++ (arrRest xs ++ ']' :: rest))
          = dumps x ++ (arrRest xs ++ ']' :: rest) := by
        rw [hct]
        rfl
      rw [hcall, rtV f x _ hx.1 (numOk_arrRest xs rest) hszx]
      try dsimp only
      rw [rtA f xs rest hx.2 hszxs]
termination_by structural f => f

theorem rtA : ∀ (f : Nat) (l : JArr) (rest : PyStr), wfA l = true →
    sizeA l ≤ f → parseArrC f (arrRest l ++ ']' :: rest) = some (l, rest)
  | 0, l, rest => by
    intro _ hsz
    have := sizeA_pos l
    omega
  | f + 1, l, rest => by
    intro hwf hsz
    cases l with
    | nil =>
      rw [parseArrC.eq_def]
      try dsimp only
      rw [show arrRest JArr.nil ++ ']' :: rest = ']' :: rest from rfl,
        skipWs_cons_not _ _ (by decide)]
      try dsimp only
      rw [if_pos rfl]
    | cons x xs =>
      have hin : arrRest (JArr.cons x xs) ++ ']' :: rest
          = ',' :: (' ' :: (dumps x ++ (arrRest xs ++ ']' :: rest))) := by
        simp [arrRest]
      rw [parseArrC.eq_def]
      try dsimp only
      rw [hin, skipWs_cons_not _ _ (by decide)]
      try dsimp only
      rw [if_neg (by decide : ¬(',' : Char) = ']'), if_pos rfl]
      have hx : wfJ x = true ∧ wfA xs = true := by
        simpa [wfA, Bool.and_eq_true] using hwf
      have hszx : sizeJ x ≤ f := by
        have := sizeA_pos xs
        simp only [sizeA] at hsz
        omega
      have hszxs : sizeA xs ≤ f := by
        have := sizeJ_pos x
        simp only [sizeA] at hsz
        omega
      rw [parseVal_ws_eq f (' ' :: (dumps x ++ (arrRest xs ++ ']' :: rest)))
        (dumps x ++ (arrRest xs ++ ']' :: rest)) (skipWs_space _),
        rtV f x _ hx.1 (numOk_arrRest xs rest) hszx]
      try dsimp only
      rw [rtA f xs rest hx.2 hszxs]
termination_by structural f => f

theorem rtOB : ∀ (f : Nat) (fs : JObj) (rest : PyStr), wfO fs = true →
    sizeO fs ≤ f → parseObjB f (objInner fs ++ '\x7d' :: rest) = some (fs, rest)
  | 0, fs, rest => by
    intro _ hsz
    have := sizeO_pos fs
    omega
  | f + 1, fs, rest => by
    intro hwf hsz
    cases fs with
    | nil =>
      rw [parseObjB.eq_def]
      try dsimp only
      rw [show objInner JObj.nil ++ '\x7d' :: rest = '\x7d' :: rest from rfl,
        skipWs_cons_not _ _ (by decide)]
      try dsimp only
      rw [if_pos rfl]
    | cons k v fs =>
      have hin : objInner (JObj.cons k v fs) ++ '\x7d' :: rest
          = '"' :: (escStr k ++ '"' :: (':' :: (' ' :: (dumps v ++ (objRest fs ++ '\x7d' :: rest))))) := by
        simp [objInner]
      rw [parseObjB.eq_def]
      try dsimp only
      rw [hin, skipWs_cons_not _ _ (by decide)]
      try dsimp only
      rw [if_neg (by decide : ¬('"' : Char) = '\x7d'), if_pos rfl,
        parseStrAux_rt k (':' :: (' ' :: (dumps v ++ (objRest fs ++ '\x7d' :: rest))))]
      try dsimp only
      rw [skipWs_cons_not _ _ (by decide)]
      try dsimp only
      rw [if_pos rfl]
      have hx : wfJ v = true ∧ wfO fs = true := by
        simpa [wfO, Bool.and_eq_true] using hwf
      have hszv : sizeJ v ≤ f := by
        have := sizeO_pos fs
        simp only [sizeO] at hsz
        omega
      have hszfs : sizeO fs ≤ f := by
        have := sizeJ_pos v
        simp only [sizeO] at hsz
        omega
      rw [parseVal_ws_eq f (' ' :: (dumps v ++ (objRest fs ++ '\x7d' :: rest)))
        (dumps v ++ (objRest fs ++ '\x7d' :: rest)) (skipWs_space _),
        rtV f v _ hx.1 (numOk_objRest fs rest) hszv]
      try dsimp only
      rw [rtO f fs rest hx.2 hszfs]
termination_by structural f => f

theorem rtO : ∀ (f : Nat) (fs : JObj) (rest : PyStr), wfO fs = true →
    sizeO fs ≤ f → parseObjC f (objRest fs ++ '\x7d' :: rest) = some (fs, rest)
  | 0, fs, rest => by
    intro _ hsz
    have := sizeO_pos fs
    omega
  | f + 1, fs, rest => by
    intro hwf hsz
    cases fs with
    | nil =>
      rw [parseObjC.eq_def]
      try dsimp only
      rw [show objRest JObj.nil ++ '\x7d' :: rest = '\x7d' :: rest from rfl,
        skipWs_cons_not _ _ (by decide)]
      try dsimp only
      rw [if_pos rfl]
    | cons k v fs =>
      have hin : objRest (JObj.cons k v fs) ++ '\x7d' :: rest
          = ',' :: (' ' :: ('"' :: (escStr k ++ '"' :: (':' :: (' ' :: (dumps v ++ (objRest fs ++ '\x7d' :: rest))))))) := by
        simp [objRest]
      rw [parseObjC.eq_def]
      try dsimp only
      rw [hin, skipWs_cons_not _ _ (by decide)]
      try dsimp only
      rw [if_neg (by decide : ¬(',' : Char) = '\x7d'), if_pos rfl, skipWs_space,
        skipWs_cons_not _ _ (by decide)]
      try dsimp only
      rw [if_pos rfl]
      try dsimp only
      rw [parseStrAux_rt k (':' :: (' ' :: (dumps v ++ (objRest fs ++ '\x7d' :: rest))))]
      try dsimp only
      rw [skipWs_cons_not _ _ (by decide)]
      try dsimp only
      rw [if_pos rfl]
      have hx : wfJ v = true ∧ wfO fs = true := by
        simpa [wfO, Bool.and_eq_true] using hwf
      have hszv : sizeJ v ≤ f := by
        have := sizeO_pos fs
        simp only [sizeO] at hsz
        omega
      have hszfs : sizeO fs ≤ f := by
        have := sizeJ_pos v
        simp only [sizeO] at hsz
        omega
      rw [parseVal_ws_eq f (' ' :: (dumps v ++ (objRest fs ++ '\x7d' :: rest)))
        (dumps v ++ (objRest fs ++ '\x7d' :: rest)) (skipWs_space _),
        rtV f v _ hx.1 (numOk_objRest fs rest) hszv]
      try dsimp only
      rw [rtO f fs rest hx.2 hszfs]
termination_by structural f => f
end

mutual
theorem szLe : ∀ v : Json, sizeJ v ≤ 2 * (dumps v).length := by
  intro v
  cases v with
  | null => simp [sizeJ, dumps, s2c]
  | bool b => cases b <;> simp [sizeJ, dumps, s2c]
  | num n =>
    have h : dumps (Json.num n) ≠ [] := by
      simp only [dumps, dumpInt]
      by_cases hn : n < 0
      · simp [hn]
      · simp [hn, printNat_ne_nil]
    have : 1 ≤ (dumps (Json.num n)).length := by
      cases hd : dumps (Json.num n) with
      | nil => exact absurd hd h
      | cons c t => simp
    simp only [sizeJ]
    omega
  | str s =>
    simp only [sizeJ, dumps, List.length_cons, List.length_append]
    omega
  | arr l =>
    have h := szLeAI l
    simp only [sizeJ, dumps, List.length_cons, List.length_append]
    omega
  | obj fs =>
    have h := szLeOI fs
    simp only [sizeJ, dumps, List.length_cons, List.length_append]
    omega

theorem szLeAI : ∀ l : JArr, sizeA l ≤ 2 * (arrInner l).length + 3 := by
  intro l
  cases l with
  | nil => simp [sizeA, arrInner]
  | cons x xs =>
    have h1 := szLe x
    have h2 := szLeA2 xs
    simp only [sizeA, arrInner, List.length_append]
    omega

theorem szLeA2 : ∀ l : JArr, sizeA l ≤ 2 * (arrRest l).length + 2 := by
  intro l
  cases l with
  | nil => simp [sizeA, arrRest]
  | cons x xs =>
    have h1 := szLe x
    have h2 := szLeA2 xs
    simp only [sizeA, arrRest, List.length_cons, List.length_append]
    omega

theorem szLeOI : ∀ fs : JObj, sizeO fs ≤ 2 * (objInner fs).length + 3 := by
  intro fs
  cases fs with
  | nil => simp [sizeO, objInner]
  | cons k v fs =>
    have h1 := szLe v
    have h2 := szLeO2 fs
    simp only [sizeO, objInner, List.length_cons, List.length_append]
    omega

theorem szLeO2 : ∀ fs : JObj, sizeO fs ≤ 2 * (objRest fs).length + 2 := by
  intro fs
  cases fs with
  | nil => simp [sizeO, objRest]
  | cons k v fs =>
    have h1 := szLe v
    have h2 := szLeO2 fs
    simp only [sizeO, objRest, List.length_cons, List.length_append]
    omega
end

/-- The serializer/parser round trip: re-parsing the serialization of a
well-formed value gives the value back. -/
theorem json_loads_dumps (v : Json) (hwf : wfJ v = true) :
    json_loads (dumps v) = some v := by
  have hin : dumps v ++ [] = dumps v := List.append_nil _
  have hsz : sizeJ v ≤ 2 * (dumps v).length + 2 := by
    have := szLe v
    omega
  have h := rtV (2 * (dumps v).length + 2) v [] hwf rfl hsz
  rw [hin] at h
  rw [json_loads, h]
  rfl

mutual
theorem wfV : ∀ (f : Nat) (s : PyStr) (v : Json) (r : PyStr),
    parseVal f s = some (v, r) → wfJ v = true
  | 0, s, v, r => by
    intro h
    rw [show parseVal 0 s = none from rfl] at h
    cases h
  | f + 1, s, v, r => by
    intro h
    rw [parseVal.eq_def] at h
    dsimp only at h
    split at h
    · cases h
    · split at h
      · -- object branch
        split at h
        · next fs r1 heq =>
          simp only [Option.some.injEq, Prod.mk.injEq] at h
          obtain ⟨hv, hr⟩ := h
          subst hv
          exact wfJ_buildDict fs (wfOB f _ fs r1 heq)
        · cases h
      · split at h
        · -- array branch
          split at h
          · next l r1 heq =>
            simp only [Option.some.injEq, Prod.mk.injEq] at h
            obtain ⟨hv, hr⟩ := h
            subst hv
            simp only [wfJ]
            exact wfAB f _ l r1 heq
          · cases h
        · split at h
          · -- string branch
            split at h
            · next body r1 heq =>
              simp only [Option.some.injEq, Prod.mk.injEq] at h
              obtain ⟨hv, hr⟩ := h
              subst hv
              rfl
            · cases h
          · split at h
            · -- null branch
              split at h
              · next r1 heq =>
                simp only [Option.some.injEq, Prod.mk.injEq] at h
                obtain ⟨hv, hr⟩ := h
                subst hv
                rfl
              · cases h
            · split at h
              · split at h
                · next r1 heq =>
                  simp only [Option.some.injEq, Prod.mk.injEq] at h
                  obtain ⟨hv, hr⟩ := h
                  subst hv
                  rfl
                · cases h
              · split at h
                · split at h
                  · next r1 heq =>
                    simp only [Option.some.injEq, Prod.mk.injEq] at h
                    obtain ⟨hv, hr⟩ := h
                    subst hv
                    rfl
                  · cases h
                · split at h
                  · split at h
                    · next m r1 heq =>
                      simp only [Option.some.injEq, Prod.mk.injEq] at h
                      obtain ⟨hv, hr⟩ := h
                      subst hv
                      rfl
                    · cases h
                  · split at h
                    · split at h
                      · next m r1 heq =>
                        simp only [Option.some.injEq, Prod.mk.injEq] at h
                        obtain ⟨hv, hr⟩ := h
                        subst hv
                        rfl
                      · cases h
                    · cases h
termination_by structural f => f

theorem wfAB : ∀ (f : Nat) (s : PyStr) (l : JArr) (r : PyStr),
    parseArrB f s = some (l, r) → wfA l = true
  | 0, s, l, r => by
    intro h
    rw [show parseArrB 0 s = none from rfl] at h
    cases h
  | f + 1, s, l, r => by
    intro h
    rw [parseArrB.eq_def] at h
    dsimp only at h
    split at h
    · cases h
    · split at h
      · simp only [Option.some.injEq, Prod.mk.injEq] at h
        obtain ⟨hv, hr⟩ := h
        subst hv
        rfl
      · split at h
        · next v1 r1 heq =>
          split at h
          · next vs r2 heq2 =>
            simp only [Option.some.injEq, Prod.mk.injEq] at h
            obtain ⟨hv, hr⟩ := h
            subst hv
            simp only [wfA, Bool.and_eq_true]
            exact ⟨wfV f _ v1 r1 heq, wfAC f r1 vs r2 heq2⟩
          · cases h
        · cases h
termination_by structural f => f

theorem wfAC : ∀ (f : Nat) (s : PyStr) (l : JArr) (r : PyStr),
    parseArrC f s = some (l, r) → wfA l = true
  | 0, s, l, r => by
    intro h
    rw [show parseArrC 0 s = none from rfl] at h
    cases h
  | f + 1, s, l, r => by
    intro h
    rw [parseArrC.eq_def] at h
    dsimp only at h
    split at h
    · cases h
    · split at h
      · simp only [Option.some.injEq, Prod.mk.injEq] at h
        obtain ⟨hv, hr⟩ := h
        subst hv
        rfl
      · split at h
        · split at h
          · next v1 r1 heq =>
            split at h
            · next vs r2 heq2 =>
              simp only [Option.some.injEq, Prod.mk.injEq] at h
              obtain ⟨hv, hr⟩ := h
              subst hv
              simp only [wfA, Bool.and_eq_true]
              exact ⟨wfV f _ v1 r1 heq, wfAC f r1 vs r2 heq2⟩
            · cases h
          · cases h
        · cases h
termination_by structural f => f

theorem wfOB : ∀ (f : Nat) (s : PyStr) (fs : JObj) (r : PyStr),
    parseObjB f s = some (fs, r) → wfO fs = true
  | 0, s, fs, r => by
    intro h
    rw [show parseObjB 0 s = none from rfl] at h
    cases h
  | f + 1, s, fs, r => by
    intro h
    rw [parseObjB.eq_def] at h
    dsimp only at h
    split at h
    · cases h
    · split at h
      · simp only [Option.some.injEq, Prod.mk.injEq] at h
        obtain ⟨hv, hr⟩ := h
        subst hv
        rfl
      · split at h
        · split at h
          · next k r1 heq =>
            split at h
            · cases h
            · split at h
              · split at h
                · next v1 r3 heq2 =>
                  split at h
                  · next fs2 r4 heq3 =>
                    simp only [Option.some.injEq, Prod.mk.injEq] at h
                    obtain ⟨hv, hr⟩ := h
                    subst hv
                    simp only [wfO, Bool.and_eq_true]
                    exact ⟨wfV f _ v1 r3 heq2, wfOC f r3 fs2 r4 heq3⟩
                  · cases h
                · cases h
              · cases h
          · cases h
        · cases h
termination_by structural f => f

theorem wfOC : ∀ (f : Nat) (s : PyStr) (fs : JObj) (r : PyStr),
    parseObjC f s = some (fs, r) → wfO fs = true
  | 0, s, fs, r => by
    intro h
    rw [show parseObjC 0 s = none from rfl] at h
    cases h
  | f + 1, s, fs, r => by
    intro h
    rw [parseObjC.eq_def] at h
    dsimp only at h
    split at h
    · cases h
    · split at h
      · simp only [Option.some.injEq, Prod.mk.injEq] at h
        obtain ⟨hv, hr⟩ := h
        subst hv
        rfl
      · split at h
        · split at h
          · cases h
          · split at h
            · split at h
              · next k r2 heq =>
                split at h
                · cases h
                · split at h
                  · split at h
                    · next v1 r4 heq2 =>
                      split at h
                      · next fs2 r5 heq3 =>
                        simp only [Option.some.injEq, Prod.mk.injEq] at h
                        obtain ⟨hv, hr⟩ := h
                        subst hv
                        simp only [wfO, Bool.and_eq_true]
                        exact ⟨wfV f _ v1 r4 heq2, wfOC f r4 fs2 r5 heq3⟩
                      · cases h
                    · cases h
                  · cases h
              · cases h
            · cases h
        · cases h
termination_by structural f => f
end

/-- Everything `json_loads` returns is well-formed: every object built by
the parser goes through Python's dict construction. -/
theorem json_loads_wf (s : PyStr) (v : Json) (h : json_loads s = some v) :
    wfJ v = true := by
  rw [json_loads] at h
  split at h
  · next v1 rest heq =>
    split at h
    · simp only [Option.some.injEq] at h
      subst h
      exact wfV _ s v1 rest heq
    · cases h
  · cases h

theorem json_loads_nil : json_loads [] = none := rfl

theorem json_loads_rbrace : json_loads ['\x7d'] = none := rfl

theorem pyFindN_cons_self (c : Char) (t : PyStr) : pyFindN (c :: t) c = some 0 := by
  simp [pyFindN]

theorem pyFindN_lt (t : PyStr) (c : Char) :
    ∀ i, pyFindN t c = some i → i < t.length := by
  induction t with
  | nil => intro i h; cases h
  | cons x xs ih =>
    intro i h
    rw [pyFindN] at h
    split at h
    · simp only [Option.some.injEq] at h
      subst h
      simp
    · split at h
      · next j heq =>
        simp only [Option.some.injEq] at h
        subst h
        have := ih j heq
        simp only [List.length_cons]
        omega
      · cases h

theorem pyFindN_get (t : PyStr) (c : Char) :
    ∀ i, pyFindN t c = some i → t.get? i = some c := by
  induction t with
  | nil => intro i h; cases h
  | cons x xs ih =>
    intro i h
    rw [pyFindN] at h
    split at h
    · next hx =>
      simp only [Option.some.injEq] at h
      subst h
      simp [hx]
    · split at h
      · next j heq =>
        simp only [Option.some.injEq] at h
        subst h
        simpa using ih j heq
      · cases h

theorem pyRfindN_append_last (a : PyStr) (c : Char) :
    pyRfindN (a ++ [c]) c = some a.length := by
  rw [pyRfindN]
  have hrev : (a ++ [c]).reverse = c :: a.reverse := by simp
  rw [hrev, pyFindN_cons_self]
  simp

theorem pyRfindN_get (t : PyStr) (c : Char) (j : Nat) (h : pyRfindN t c = some j) :
    t.get? j = some c ∧ j < t.length := by
  rw [pyRfindN] at h
  split at h
  · next i heq =>
    simp only [Option.some.injEq] at h
    have hilt : i < t.reverse.length := pyFindN_lt t.reverse c i heq
    have hget : t.reverse.get? i = some c := pyFindN_get t.reverse c i heq
    simp only [List.length_reverse] at hilt
    have hj : j = t.length - 1 - i := h.symm
    subst hj
    constructor
    · rw [← hget, List.get?_eq_getElem?, List.get?_eq_getElem?,
        List.getElem?_reverse hilt]
    · omega
  · cases h

theorem pyNormIdx_of_nat (n i : Nat) (h : i ≤ n) : pyNormIdx n (i : Int) = i := by
  simp only [pyNormIdx]
  omega

theorem pyNormIdx_neg_one (n : Nat) (h : 1 ≤ n) : pyNormIdx n (-1) = n - 1 := by
  simp only [pyNormIdx]
  omega

theorem pySlice_full (t : PyStr) : pySlice t 0 (t.length : Int) = t := by
  rw [pySlice]
  have h0 : pyNormIdx t.length 0 = 0 := by
    simp only [pyNormIdx]
    omega
  have hn : pyNormIdx t.length (t.length : Int) = t.length := by
    simp only [pyNormIdx]
    omega
  rw [h0, hn]
  simp

theorem take_cons_head (l : PyStr) (k : Nat) (c : Char) (z : PyStr)
    (h : l.take k = c :: z) : l.head? = some c := by
  cases k with
  | zero => cases h
  | succ k =>
    cases l with
    | nil => cases h
    | cons a l2 =>
      simp only [List.take_succ_cons, List.cons.injEq] at h
      simp [h.1]

theorem drop_head_get (l : PyStr) : ∀ n : Nat, (l.drop n).head? = l.get? n := by
  induction l with
  | nil => intro n; cases n <;> rfl
  | cons a l2 ih =>
    intro n
    cases n with
    | zero => rfl
    | succ n => simp [ih n]

theorem pyFindN_none (t : PyStr) (c : Char) (h : pyFindN t c = none) :
    ∀ x ∈ t, x ≠ c := by
  induction t with
  | nil => intro x hx; cases hx
  | cons a t2 ih =>
    intro x hx
    rw [pyFindN] at h
    split at h
    · cases h
    · next ha =>
      split at h
      · cases h
      · next hnone =>
        rcases List.mem_cons.mp hx with rfl | hx2
        · exact ha
        · exact ih hnone x hx2

theorem loads_obj_head (z : PyStr) (v : Json) (h : json_loads ('\x7b' :: z) = some v) :
    ∃ fs, v = .obj fs := by
  rw [json_loads] at h
  have hf2 : 2 * ('\x7b' :: z).length + 2 = (2 * ('\x7b' :: z).length + 1) + 1 := rfl
  rw [hf2, parseVal.eq_def] at h
  dsimp only at h
  rw [skipWs_cons_not _ _ (by decide)] at h
  dsimp only at h
  rw [if_pos rfl] at h
  split at h
  · next v1 rest heq =>
    split at h
    · simp only [Option.some.injEq] at h
      subst h
      split at heq
      · next fs r1 heq2 =>
        simp only [Option.some.injEq, Prod.mk.injEq] at heq
        exact ⟨buildDict fs, heq.1.symm⟩
      · cases heq
    · cases h
  · cases h

theorem loads_slice_obj (t : PyStr) (i : Nat) (hi : i < t.length)
    (hgi : t.get? i = some '\x7b') (b : Int) (v : Json)
    (h : json_loads (pySlice t (i : Int) b) = some v) : ∃ fs, v = .obj fs := by
  rw [pySlice, pyNormIdx_of_nat t.length i (le_of_lt hi)] at h
  generalize pyNormIdx t.length b - i = k at h
  cases hk : (t.drop i).take k with
  | nil =>
    rw [hk, json_loads_nil] at h
    cases h
  | cons c z =>
    have hc := take_cons_head (t.drop i) k c z hk
    rw [drop_head_get, hgi] at hc
    injection hc with hc2
    rw [hk, ← hc2] at h
    exact loads_obj_head z v h

theorem extract_isObj (t : PyStr) (v : Json) (h : extract_json t = some v) :
    ∃ fs, v = .obj fs := by
  simp only [extract_json] at h
  cases hf : pyFindN t '\x7b' with
  | some i =>
    rw [hf] at h
    dsimp only at h
    exact loads_slice_obj t i (pyFindN_lt t '\x7b' i hf) (pyFindN_get t '\x7b' i hf) _ v h
  | none =>
    exfalso
    rw [hf] at h
    dsimp only at h
    cases hr : pyRfindN t '\x7d' with
    | none =>
      rw [hr] at h
      dsimp only at h
      have hsl : pySlice t (-1) (-1 + 1) = [] := by
        rw [pySlice]
        have hb : pyNormIdx t.length (-1 + 1) = 0 := by
          simp only [pyNormIdx]
          omega
        rw [hb]
        simp
      rw [hsl, json_loads_nil] at h
      cases h
    | some j =>
      rw [hr] at h
      dsimp only at h
      obtain ⟨hgj, hjlt⟩ := pyRfindN_get t '\x7d' j hr
      have hcases : pySlice t (-1) ((j : Int) + 1) = [] ∨
          pySlice t (-1) ((j : Int) + 1) = ['\x7d'] := by
        rw [pySlice]
        have hn1 : 1 ≤ t.length := by omega
        have ha : pyNormIdx t.length (-1) = t.length - 1 := pyNormIdx_neg_one _ hn1
        have hbv : pyNormIdx t.length ((j : Int) + 1) = j + 1 := by
          simp only [pyNormIdx]
          omega
        rw [ha, hbv]
        by_cases hj : j + 1 ≤ t.length - 1
        · left
          have hz : j + 1 - (t.length - 1) = 0 := by omega
          rw [hz]
          simp
        · right
          have hj2 : j = t.length - 1 := by omega
          have hk1 : j + 1 - (t.length - 1) = 1 := by omega
          rw [hk1]
          have hh : (t.drop (t.length - 1)).head? = some '\x7d' := by
            rw [drop_head_get, ← hj2]
            exact hgj
          cases hd : t.drop (t.length - 1) with
          | nil =>
            rw [hd] at hh
            cases hh
          | cons c z =>
            rw [hd] at hh
            injection hh with hh2
            rw [hh2]
            rfl
      rcases hcases with hsl | hsl
      · rw [hsl, json_loads_nil] at h
        cases h
      · rw [hsl, json_loads_rbrace] at h
        cases h

theorem extract_wf (t : PyStr) (v : Json) (h : extract_json t = some v) :
    wfJ v = true := by
  simp only [extract_json] at h
  exact json_loads_wf _ v h

theorem extract_json_dumps_obj (fs : JObj) (hwf : wfJ (.obj fs) = true) :
    extract_json (dumps (.obj fs)) = some (.obj fs) := by
  have hshape : dumps (Json.obj fs) = ('\x7b' :: objInner fs) ++ ['\x7d'] := by
    simp [dumps]
  simp only [extract_json]
  have hfind : pyFindN (dumps (Json.obj fs)) '\x7b' = some 0 := by
    rw [hshape]
    exact pyFindN_cons_self _ _
  have hrfind : pyRfindN (dumps (Json.obj fs)) '\x7d'
      = some ('\x7b' :: objInner fs).length := by
    rw [hshape]
    exact pyRfindN_append_last _ _
  rw [hfind, hrfind]
  dsimp only
  have hlen : ((('\x7b' :: objInner fs).length : Int) + 1)
      = ((dumps (Json.obj fs)).length : Int) := by
    rw [hshape]
    push_cast [List.length_append]
    simp
  rw [show ((0 : Nat) : Int) = (0 : Int) from rfl, hlen, pySlice_full]
  exact json_loads_dumps _ hwf

theorem wf_placeholderSources : wfJ placeholderSources = true := by decide

theorem wf_invoker_fallback (le : Option PyStr) : wfJ (invoker_fallback le) = true := by
  simp only [invoker_fallback, invoker_fields, wfJ, wfO, wfA, nodupKeys, JObj.hasKey,
    placeholderSources, placeholderSource]
  decide

theorem wf_analyze_fallback : wfJ analyze_fallback = true := by decide

theorem backfillKey_nodup (fs : JObj) (k : PyStr) (v : Json)
    (h : nodupKeys fs = true) : nodupKeys (fs.backfillKey k v) = true := by
  rw [JObj.backfillKey]
  split
  · exact h
  · exact nodup_setKey fs k v h

theorem backfillKey_wfO (fs : JObj) (k : PyStr) (v : Json)
    (h : wfO fs = true) (hv : wfJ v = true) : wfO (fs.backfillKey k v) = true := by
  rw [JObj.backfillKey]
  split
  · exact h
  · exact wfO_setKey fs k v h hv

theorem backfill_wf (v : Json) (h : wfJ v = true) : wfJ (backfill v) = true := by
  cases v with
  | obj fs =>
    simp only [wfJ, Bool.and_eq_true] at h
    simp only [backfill, wfJ, Bool.and_eq_true]
    constructor
    · exact backfillKey_nodup _ _ _ (backfillKey_nodup _ _ _ (backfillKey_nodup _ _ _ h.1))
    · exact backfillKey_wfO _ _ _ (backfillKey_wfO _ _ _ (backfillKey_wfO _ _ _ h.2 rfl) rfl) rfl
  | null => exact h
  | bool b => exact h
  | num n => exact h
  | str s => exact h
  | arr l => exact h

theorem sources_fix_obj (fs : JObj) :
    ∃ fs2, sources_fix (.obj fs) = .obj fs2 ∧
      ∃ sv, fs2.getKey sourcesK = some sv ∧ bad_sources (some sv) = false := by
  by_cases hb : bad_sources (fs.getKey sourcesK) = true
  · refine ⟨fs.setKey sourcesK placeholderSources, ?_, placeholderSources, ?_, ?_⟩
    · simp [sources_fix, hb]
    · exact getKey_setKey_self fs sourcesK placeholderSources
    · rfl
  · have hb2 : bad_sources (fs.getKey sourcesK) = false := by
      cases hx : bad_sources (fs.getKey sourcesK)
      · rfl
      · exact absurd hx hb
    refine ⟨fs, by simp [sources_fix, hb2], ?_⟩
    cases hg : fs.getKey sourcesK with
    | none =>
      rw [hg] at hb2
      cases hb2
    | some sv =>
      rw [hg] at hb2
      exact ⟨sv, rfl, hb2⟩

theorem sources_fix_wf (fs : JObj) (h : wfJ (.obj fs) = true) :
    wfJ (sources_fix (.obj fs)) = true := by
  simp only [wfJ, Bool.and_eq_true] at h
  rw [sources_fix]
  split
  · simp only [wfJ, Bool.and_eq_true]
    exact ⟨nodup_setKey _ _ _ h.1, wfO_setKey _ _ _ h.2 wf_placeholderSources⟩
  · simp only [wfJ, Bool.and_eq_true]
    exact h

theorem bad_sources_false_ne (sv : Json) (h : bad_sources (some sv) = false) :
    sv ≠ .null ∧ sv ≠ .arr .nil ∧ sv ≠ .str [] := by
  refine ⟨?_, ?_, ?_⟩ <;> intro he <;> subst he <;> cases h

theorem call_model_go_obj (attempts : List Attempt) :
    ∀ le, ∃ fs, (call_model_go attempts le).1 = dumps (.obj fs) ∧ wfJ (.obj fs) = true := by
  induction attempts with
  | nil =>
    intro le
    refine ⟨invoker_fields le, ?_, wf_invoker_fallback le⟩
    simp only [call_model_go]
    rfl
  | cons a rest ih =>
    intro le
    cases a with
    | fail e =>
      simp only [call_model_go]
      exact ih (some e)
    | reply co =>
      simp only [call_model_go]
      cases co with
      | none =>
        dsimp only
        rw [show extract_json [] = none from rfl]
        exact ih le
      | some c =>
        dsimp only
        cases hx : extract_json (pyStrip c) with
        | none => exact ih le
        | some parsed =>
          dsimp only
          obtain ⟨pfs, rfl⟩ := extract_isObj _ parsed hx
          by_cases ht : pyTruthy (.obj pfs) = true
          · rw [if_pos ht]
            have hwf := extract_wf _ _ hx
            cases hb : backfill (Json.obj pfs) with
            | obj bfs => exact ⟨bfs, rfl, by rw [← hb]; exact backfill_wf _ hwf⟩
            | null => exact absurd hb (by simp [backfill])
            | bool b2 => exact absurd hb (by simp [backfill])
            | num n2 => exact absurd hb (by simp [backfill])
            | str s2 => exact absurd hb (by simp [backfill])
            | arr l2 => exact absurd hb (by simp [backfill])
          · rw [if_neg ht]
            exact ih le

theorem call_model_go_unparseable : ∀ (attempts : List Attempt) (le : Option PyStr),
    (∀ a ∈ attempts, ∃ t, a = .reply (some t) ∧ extract_json (pyStrip t) = none) →
    call_model_go attempts le = (dumps (invoker_fallback le), false) := by
  intro attempts
  induction attempts with
  | nil => intro le _; rfl
  | cons a rest ih =>
    intro le hall
    obtain ⟨t, rfl, hx⟩ := hall a (by simp)
    simp only [call_model_go]
    rw [hx]
    exact ih le (fun b hb => hall b (by simp [hb]))

theorem normalize_output_obj (mt : PyStr) :
    ∃ fs, normalize_output mt = .obj fs ∧ wfJ (.obj fs) = true ∧
      ∃ sv, fs.getKey sourcesK = some sv ∧ bad_sources (some sv) = false := by
  rw [normalize_output]
  cases hx : extract_json mt with
  | some v =>
    obtain ⟨pfs, rfl⟩ := extract_isObj mt v hx
    have hwf := extract_wf mt _ hx
    simp only [Option.getD_some]
    obtain ⟨fs2, heq, sv, hgv, hbad⟩ := sources_fix_obj pfs
    refine ⟨fs2, heq, ?_, sv, hgv, hbad⟩
    rw [← heq]
    exact sources_fix_wf pfs hwf
  | none =>
    simp only [Option.getD_none]
    exact ⟨analyze_fallback_fields, by decide, by decide, placeholderSources,
      by decide, by decide⟩

theorem getKey_setKey_ne (fs : JObj) (k : PyStr) (v : Json) (k1 : PyStr)
    (h : k1 ≠ k) : (fs.setKey k v).getKey k1 = fs.getKey k1 := by
  induction fs using jobjInduction with
  | hnil =>
    have hs : ¬k = k1 := fun e => h e.symm
    simp [JObj.setKey, JObj.getKey, hs]
  | hcons k0 v0 fs ih =>
    by_cases hk : k0 = k
    · subst hk
      have hs : ¬k0 = k1 := fun e => h (e.symm.trans rfl) |>.elim
      simp [JObj.setKey, JObj.getKey, hs]
    · simp only [JObj.setKey, if_neg hk, JObj.getKey]
      by_cases h1 : k0 = k1
      · simp [h1]
      · simp [h1, ih]

theorem call_model_go_no_return : ∀ (attempts : List Attempt) (le : Option PyStr),
    (∀ a ∈ attempts, ∃ t, a = .reply (some t) ∧
      (extract_json (pyStrip t) = none ∨
        ∀ p, extract_json (pyStrip t) = some p → pyTruthy p = false)) →
    call_model_go attempts le = (dumps (invoker_fallback le), false) := by
  intro attempts
  induction attempts with
  | nil => intro le _; rfl
  | cons a rest ih =>
    intro le hall
    obtain ⟨t, rfl, hx⟩ := hall a (by simp)
    simp only [call_model_go]
    have htail : ∀ b ∈ rest, ∃ t2, b = .reply (some t2) ∧
        (extract_json (pyStrip t2) = none ∨
          ∀ p, extract_json (pyStrip t2) = some p → pyTruthy p = false) :=
      fun b hb => hall b (by simp [hb])
    cases hcase : extract_json (pyStrip t) with
    | none => exact ih le htail
    | some p =>
      rcases hx with hnone | hfalsy
      · rw [hnone] at hcase
        cases hcase
      · dsimp only
        rw [hfalsy p hcase, if_neg (show ¬(false = true) by decide)]
        exact ih le htail

theorem call_model_truthy_step (c : PyStr) (rest : List Attempt) (le : Option PyStr)
    (v : Json) (hx : extract_json (pyStrip c) = some v) (ht : pyTruthy v = true) :
    call_model_go (Attempt.reply (some c) :: rest) le = (dumps (backfill v), true) := by
  simp only [call_model_go]
  rw [hx]
  dsimp only
  rw [if_pos ht]

theorem normalize_dumps_invoker (le : Option PyStr) :
    normalize_output (dumps (invoker_fallback le)) = invoker_fallback le := by
  rw [normalize_output, invoker_fallback,
    extract_json_dumps_obj (invoker_fields le) (wf_invoker_fallback le)]
  simp only [Option.getD_some, sources_fix]
  have hg : (invoker_fields le).getKey sourcesK = some placeholderSources := by
    simp [invoker_fields, JObj.getKey,
      show ¬(conclusionK = sourcesK) by decide, show ¬(explanationK = sourcesK) by decide]
  rw [hg]
  simp [show bad_sources (some placeholderSources) = false from rfl]

theorem invoker_fallback_conclusion (le : Option PyStr) :
    (invoker_fallback le).jGet conclusionK = some (.str unknownS) := by
  simp [invoker_fallback, invoker_fields, Json.jGet, JObj.getKey]

theorem invoker_fallback_sources (le : Option PyStr) :
    (invoker_fallback le).jGet sourcesK = some placeholderSources := by
  simp [invoker_fallback, invoker_fields, Json.jGet, JObj.getKey,
    show ¬(conclusionK = sourcesK) by decide, show ¬(explanationK = sourcesK) by decide]

theorem analyze_unfold_success (data : JObj) (attempts : List Attempt) (fsOk : Bool)
    (file : Option (List (List PyStr))) (now : PyStr) (s : PyStr)
    (hget : data.getKey textK = some (.str s)) (hne : pyStrip s ≠ []) :
    analyze data attempts fsOk file now =
      if fsOk then
        { resp := .ok (200, analyze_result (pyStrip s) attempts),
          modelInvoked := true,
          log := append_log file [now, pyStrip s, dumps (analyze_result (pyStrip s) attempts)] }
      else { resp := .error .fsError, modelInvoked := true, log := file } := by
  simp only [analyze, hget, Option.getD_some]
  rw [if_neg hne]

theorem analyze_result_fields (ut : PyStr) (attempts : List Attempt) :
    ∃ cv ev sv,
      (analyze_result ut attempts).jGet conclusionK = some cv ∧
      (analyze_result ut attempts).jGet explanationK = some ev ∧
      (analyze_result ut attempts).jGet sourcesK = some sv ∧
      sv ≠ .null ∧ sv ≠ .arr .nil ∧ sv ≠ .str [] := by
  obtain ⟨fs, heq, _hwf, sv0, hgv, hbad⟩ :=
    normalize_output_obj (call_model (build_prompt ut) attempts).1
  obtain ⟨h1, h2, h3⟩ := bad_sources_false_ne sv0 hbad
  refine ⟨((normalize_output (call_model (build_prompt ut) attempts).1).jGet conclusionK).getD .null,
    ((normalize_output (call_model (build_prompt ut) attempts).1).jGet explanationK).getD .null,
    sv0, ?_, ?_, ?_, h1, h2, h3⟩
  · simp [analyze_result, Json.jGet, JObj.getKey]
  · simp [analyze_result, Json.jGet, JObj.getKey,
      show ¬(conclusionK = explanationK) by decide]
  · simp only [analyze_result, Json.jGet, JObj.getKey]
    rw [if_neg (show ¬(conclusionK = sourcesK) by decide),
      if_neg (show ¬(explanationK = sourcesK) by decide), heq]
    simp [hgv]

theorem analyze_resp_indep (d : JObj) (a : List Attempt) (k : Bool)
    (f1 f2 : Option (List (List PyStr))) (n : PyStr) :
    (analyze d a k f1 n).resp = (analyze d a k f2 n).resp ∧
    (analyze d a k f1 n).modelInvoked = (analyze d a k f2 n).modelInvoked := by
  simp only [analyze]
  split
  · split
    · exact ⟨rfl, rfl⟩
    · split
      · exact ⟨rfl, rfl⟩
      · exact ⟨rfl, rfl⟩
  · exact ⟨rfl, rfl⟩

theorem analyze_200_log (d : JObj) (a : List Attempt) (k : Bool)
    (f : Option (List (List PyStr))) (n : PyStr)
    (h : ∃ b, (analyze d a k f n).resp = .ok (200, b)) :
    ∃ row, row.length = 3 ∧ (analyze d a k f n).log = append_log f row := by
  obtain ⟨b, hb⟩ := h
  revert hb
  simp only [analyze]
  split
  · split
    · intro hb
      simp only [Except.ok.injEq, Prod.mk.injEq] at hb
      omega
    · split
      · intro _
        refine ⟨_, ?_, rfl⟩
        rfl
      · intro hb
        cases hb
  · intro hb
    cases hb

/-- Claim C2: for every prompt and every behaviour of the upstream API —
each attempt may raise or return arbitrary text — `call_model` returns
normally (it is a total function of the attempt oracle in this embedding,
mirroring that every exception is caught by the retry loop) and the first
component of its return value always parses as valid JSON. -/
theorem c2_call_model_valid_json (prompt : PyStr) (attempts : List Attempt) :
    (json_loads (call_model prompt attempts).1).isSome = true := by
  obtain ⟨fs, heq, hwf⟩ := call_model_go_obj attempts none
  rw [call_model, heq, json_loads_dumps _ hwf]
  rfl

/-- Claim C4, counterexample: the payload consisting of the empty JSON
object parses successfully under the brace heuristic, yet `call_model`
does not return the re-serialized backfilled object: the empty dict is
falsy, so the attempt is treated as failed and the retry loop falls
through to the exhaustion fallback. -/
theorem c4_counterexample :
    extract_json (s2c "\x7b\x7d") = some (.obj .nil) ∧
    (call_model_go [Attempt.reply (some (s2c "\x7b\x7d"))] none).1
      = dumps (invoker_fallback none) ∧
    dumps (invoker_fallback none) ≠ dumps (backfill (.obj .nil)) := by
  refine ⟨rfl, rfl, by decide⟩

/-- Claim C4, amended: on every attempt whose brace-delimited substring
parses successfully to a truthy value (a non-empty JSON object), the
function backfills the three required keys as absent and returns the
re-serialized JSON string immediately, performing no further retries (the
result does not depend on the remaining attempts); an attempt parsing to
the empty object is treated as failed and retried. -/
theorem c4_amended_ok (c : PyStr) (rest : List Attempt) (le : Option PyStr)
    (v : Json) (hx : extract_json (pyStrip c) = some v) (ht : pyTruthy v = true) :
    call_model_go (Attempt.reply (some c) :: rest) le = (dumps (backfill v), true) :=
  call_model_truthy_step c rest le v hx ht

/-- Witness for the amended C4 at a concrete truthy payload. -/
theorem c4_amended_witness :
    call_model_go [Attempt.reply (some (s2c " \x7b\"a\": 1\x7d "))] none
      = (dumps (backfill (.obj (.cons ['a'] (.num 1) .nil))), true) :=
  c4_amended_ok (s2c " \x7b\"a\": 1\x7d ") [] none (.obj (.cons ['a'] (.num 1) .nil))
    (by decide) (by decide)

/-- Claim C5: when the request's `text` field is absent, or is a string
that is blank after trimming, the handler returns HTTP 400 with exactly
the "No text provided." error body, does not invoke the model, and leaves
the log file untouched. -/
theorem c5_blank_text_400 (data : JObj) (attempts : List Attempt) (fsOk : Bool)
    (file : Option (List (List PyStr))) (now : PyStr)
    (h : data.getKey textK = none ∨
      ∃ s, data.getKey textK = some (.str s) ∧ pyStrip s = []) :
    (analyze data attempts fsOk file now).resp = .ok (400, err400Body) ∧
    (analyze data attempts fsOk file now).modelInvoked = false ∧
    (analyze data attempts fsOk file now).log = file := by
  rcases h with hnone | ⟨s, hget, hstrip⟩
  · simp [analyze, hnone, show pyStrip [] = [] from rfl]
  · simp [analyze, hget, hstrip]

/-- Witness for C5: a request body with no `text` key. -/
theorem c5_witness :
    (analyze .nil [] true none []).resp = .ok (400, err400Body) ∧
    (analyze .nil [] true none []).modelInvoked = false ∧
    (analyze .nil [] true none []).log = none :=
  c5_blank_text_400 .nil [] true none [] (Or.inl rfl)

/-- Claim C7: the JSON extraction-and-normalization step of `analyze`
(brace-heuristic parse, fallback substitution on failure, sources
invariant) is idempotent: applying it to the JSON serialization of its
own output yields the same structured result, for every input string. -/
theorem c7_normalize_idempotent (s : PyStr) :
    normalize_output (dumps (normalize_output s)) = normalize_output s := by
  obtain ⟨fs, heq, hwf, sv, hgv, hbad⟩ := normalize_output_obj s
  rw [heq, normalize_output, extract_json_dumps_obj fs hwf]
  simp only [Option.getD_some, sources_fix]
  simp [hgv, hbad]

/-- Claim C9: if the log append fails, the handler does not return 200
even though the result object was already computed — the error propagates
(surfacing as a 500 at the framework layer) and the log is unchanged; a
200 response is produced only when the log row has been written. -/
theorem c9_log_failure_no_200 (data : JObj) (attempts : List Attempt)
    (file : Option (List (List PyStr))) (now s : PyStr)
    (hget : data.getKey textK = some (.str s)) (hne : pyStrip s ≠ []) :
    (analyze data attempts false file now).resp = .error .fsError ∧
    (analyze data attempts false file now).log = file ∧
    ∀ (fsOk : Bool) (b : Json),
      (analyze data attempts fsOk file now).resp = .ok (200, b) →
      (analyze data attempts fsOk file now).log
        = append_log file [now, pyStrip s, dumps b] := by
  refine ⟨?_, ?_, ?_⟩
  · rw [analyze_unfold_success data attempts false file now s hget hne]
    rfl
  · rw [analyze_unfold_success data attempts false file now s hget hne]
    rfl
  · intro fsOk b hb
    rw [analyze_unfold_success data attempts fsOk file now s hget hne] at hb ⊢
    cases fsOk with
    | false => cases hb
    | true =>
      simp only [if_true] at hb ⊢
      simp only [Except.ok.injEq, Prod.mk.injEq, true_and] at hb
      rw [← hb]

/-- Witness for C9: with a failing filesystem the concrete request does
not produce a 200 response. -/
theorem c9_witness :
    (analyze (.cons textK (.str (s2c "hi")) .nil) [] false none (s2c "t")).resp
      = .error .fsError :=
  (c9_log_failure_no_200 (.cons textK (.str (s2c "hi")) .nil) [] none (s2c "t")
    (s2c "hi") rfl (by decide)).1

/-- Claim C10: when the request's `text` field is present but bound to a
non-string JSON value, the handler does not take the 400 validation
branch: `.strip()` on the non-string raises `AttributeError`, so the
documented 400 behaviour holds only when `text` is absent or a string. -/
theorem c10_nonstring_text_raises (data : JObj) (attempts : List Attempt) (fsOk : Bool)
    (file : Option (List (List PyStr))) (now : PyStr) (v : Json)
    (hget : data.getKey textK = some v) (hv : ∀ s, v ≠ .str s) :
    (analyze data attempts fsOk file now).resp = .error .attributeError ∧
    (analyze data attempts fsOk file now).modelInvoked = false ∧
    (analyze data attempts fsOk file now).log = file := by
  cases v with
  | str s => exact absurd rfl (hv s)
  | null => simp [analyze, hget]
  | bool b => simp [analyze, hget]
  | num n => simp [analyze, hget]
  | arr l => simp [analyze, hget]
  | obj fs => simp [analyze, hget]

/-- Witness for C10: `text` bound to the number 5 raises instead of
returning 400. -/
theorem c10_witness :
    (analyze (.cons textK (.num 5) .nil) [] true none []).resp
      = .error .attributeError :=
  (c10_nonstring_text_raises (.cons textK (.num 5) .nil) [] true none [] (.num 5)
    rfl (fun s h => Json.noConfusion h)).1

/-- Claim C1, counterexample: with non-blank text and an upstream output
that explicitly binds `conclusion` to JSON null, the endpoint does return
HTTP 200, but the body's `conclusion` is null — refuting the claim that
`conclusion` is non-null for every possible upstream model output. -/
theorem c1_counterexample :
    (analyze (.cons textK (.str (s2c "hi")) .nil)
        [Attempt.reply (some (s2c "\x7b\"conclusion\": null\x7d"))] true none (s2c "t")).resp
      = .ok (200, analyze_result (s2c "hi")
          [Attempt.reply (some (s2c "\x7b\"conclusion\": null\x7d"))]) ∧
    (analyze_result (s2c "hi")
        [Attempt.reply (some (s2c "\x7b\"conclusion\": null\x7d"))]).jGet conclusionK
      = some .null :=
  ⟨rfl, by decide⟩

/-- Claim C1, amended: for every request whose `text` is non-empty after
trimming and whose log append succeeds, the endpoint returns HTTP 200
with a body that always carries `conclusion`, `explanation` and `sources`
fields, and whose `sources` value is never null, never the empty list and
never the empty string — but `conclusion` and `explanation` may be bound
to null (and `sources` to a non-list value) when the upstream output
explicitly supplies such values. -/
theorem c1_amended_ok (data : JObj) (attempts : List Attempt)
    (file : Option (List (List PyStr))) (now s : PyStr)
    (hget : data.getKey textK = some (.str s)) (hne : pyStrip s ≠ []) :
    ∃ b, (analyze data attempts true file now).resp = .ok (200, b) ∧
      (∃ cv, b.jGet conclusionK = some cv) ∧
      (∃ ev, b.jGet explanationK = some ev) ∧
      ∃ sv, b.jGet sourcesK = some sv ∧
        sv ≠ .null ∧ sv ≠ .arr .nil ∧ sv ≠ .str [] := by
  rw [analyze_unfold_success data attempts true file now s hget hne]
  obtain ⟨cv, ev, sv, h1, h2, h3, h4, h5, h6⟩ := analyze_result_fields (pyStrip s) attempts
  exact ⟨analyze_result (pyStrip s) attempts, rfl, ⟨cv, h1⟩, ⟨ev, h2⟩, sv, h3, h4, h5, h6⟩

/-- Witness for the amended C1 at a concrete request. -/
theorem c1_amended_witness :
    ∃ b, (analyze (.cons textK (.str (s2c "ok")) .nil) [] true none (s2c "t")).resp
        = .ok (200, b) ∧
      (∃ cv, b.jGet conclusionK = some cv) ∧
      (∃ ev, b.jGet explanationK = some ev) ∧
      ∃ sv, b.jGet sourcesK = some sv ∧
        sv ≠ .null ∧ sv ≠ .arr .nil ∧ sv ≠ .str [] :=
  c1_amended_ok (.cons textK (.str (s2c "ok")) .nil) [] none (s2c "t") (s2c "ok")
    rfl (by decide)

/-- Claim C3: if the upstream model returns a string containing no
parseable JSON on every attempt, the endpoint's final result has
`conclusion` equal to "unknown" and `sources` containing exactly one
entry, the fixed placeholder source. -/
theorem c3_unparseable_fallback (data : JObj) (attempts : List Attempt)
    (file : Option (List (List PyStr))) (now s : PyStr)
    (hget : data.getKey textK = some (.str s)) (hne : pyStrip s ≠ [])
    (hall : ∀ a ∈ attempts, ∃ t, a = .reply (some t) ∧ extract_json (pyStrip t) = none) :
    ∃ b, (analyze data attempts true file now).resp = .ok (200, b) ∧
      b.jGet conclusionK = some (.str unknownS) ∧
      b.jGet sourcesK = some placeholderSources := by
  rw [analyze_unfold_success data attempts true file now s hget hne]
  have hcm : (call_model (build_prompt (pyStrip s)) attempts).1
      = dumps (invoker_fallback none) := by
    rw [call_model, call_model_go_no_return attempts none
      (fun a ha => (hall a ha).elim (fun t htt => ⟨t, htt.1, Or.inl htt.2⟩))]
  have hnorm : normalize_output (call_model (build_prompt (pyStrip s)) attempts).1
      = invoker_fallback none := by
    rw [hcm, normalize_dumps_invoker]
  refine ⟨analyze_result (pyStrip s) attempts, rfl, ?_, ?_⟩
  · simp only [analyze_result, Json.jGet, JObj.getKey]
    rw [hnorm]
    simp [invoker_fallback, invoker_fields, JObj.getKey]
  · simp only [analyze_result, Json.jGet, JObj.getKey]
    rw [if_neg (show ¬(conclusionK = sourcesK) by decide),
      if_neg (show ¬(explanationK = sourcesK) by decide), hnorm]
    simp [invoker_fallback, invoker_fields, JObj.getKey,
      show ¬(conclusionK = sourcesK) by decide,
      show ¬(explanationK = sourcesK) by decide]

/-- Witness for C3: two attempts, both returning plain prose. -/
theorem c3_witness :
    ∃ b, (analyze (.cons textK (.str (s2c "ok")) .nil)
        [Attempt.reply (some (s2c "hello")), Attempt.reply (some (s2c "hi"))]
        true none (s2c "t")).resp = .ok (200, b) ∧
      b.jGet conclusionK = some (.str unknownS) ∧
      b.jGet sourcesK = some placeholderSources :=
  c3_unparseable_fallback (.cons textK (.str (s2c "ok")) .nil)
    [Attempt.reply (some (s2c "hello")), Attempt.reply (some (s2c "hi"))]
    none (s2c "t") (s2c "ok") rfl (by decide)
    (by
      intro a ha
      rcases List.mem_cons.mp ha with rfl | ha2
      · exact ⟨s2c "hello", rfl, by decide⟩
      · rcases List.mem_cons.mp ha2 with rfl | ha3
        · exact ⟨s2c "hi", rfl, by decide⟩
        · exact absurd ha3 (List.not_mem_nil a))

theorem hasKey_backfillKey_ne (fs : JObj) (k : PyStr) (v : Json) (k1 : PyStr)
    (h : k1 ≠ k) : (fs.backfillKey k v).hasKey k1 = fs.hasKey k1 := by
  rw [JObj.backfillKey]
  split
  · rfl
  · rw [hasKey_setKey]
    simp [h]

theorem getKey_backfillKey_ne (fs : JObj) (k : PyStr) (v : Json) (k1 : PyStr)
    (h : k1 ≠ k) : (fs.backfillKey k v).getKey k1 = fs.getKey k1 := by
  rw [JObj.backfillKey]
  split
  · rfl
  · exact getKey_setKey_ne fs k v k1 h

theorem backfill_sources_bad (pfs : JObj)
    (hbad : bad_sources (pfs.getKey sourcesK) = true) :
    ∃ bfs, backfill (.obj pfs) = .obj bfs ∧
      bad_sources (bfs.getKey sourcesK) = true := by
  simp only [backfill]
  refine ⟨_, rfl, ?_⟩
  have hB : ((pfs.backfillKey conclusionK (.str unknownS)).backfillKey
      explanationK (.str unknownS)).getKey sourcesK = pfs.getKey sourcesK := by
    rw [getKey_backfillKey_ne _ _ _ _ (show sourcesK ≠ explanationK by decide),
      getKey_backfillKey_ne _ _ _ _ (show sourcesK ≠ conclusionK by decide)]
  rw [JObj.backfillKey]
  split
  · rw [hB]
    exact hbad
  · rw [getKey_setKey_self]
    rfl

theorem normalize_dumps_bad_sources (bfs : JObj) (hwf : wfJ (.obj bfs) = true)
    (hbad : bad_sources (bfs.getKey sourcesK) = true) :
    normalize_output (dumps (.obj bfs))
      = .obj (bfs.setKey sourcesK placeholderSources) := by
  rw [normalize_output, extract_json_dumps_obj bfs hwf]
  simp only [Option.getD_some, sources_fix]
  rw [hbad]
  simp

/-- Claim C6: when the upstream model returns valid JSON whose `sources`
key is absent, null, the empty list or the empty string (on every attempt
of the retry loop, here all attempts returning the same payload), the
pipeline's final result carries exactly the single placeholder source —
never an absent or null `sources`. -/
theorem c6_missing_sources_placeholder (data : JObj)
    (file : Option (List (List PyStr))) (now s t : PyStr) (n : Nat) (pfs : JObj)
    (hget : data.getKey textK = some (.str s)) (hne : pyStrip s ≠ [])
    (hx : extract_json (pyStrip t) = some (.obj pfs))
    (hbad : bad_sources (pfs.getKey sourcesK) = true) :
    ∃ b, (analyze data (List.replicate n (Attempt.reply (some t))) true file now).resp
        = .ok (200, b) ∧
      b.jGet sourcesK = some placeholderSources := by
  rw [analyze_unfold_success data _ true file now s hget hne]
  refine ⟨analyze_result (pyStrip s) (List.replicate n (Attempt.reply (some t))), rfl, ?_⟩
  have hNF : ∃ NF, normalize_output (call_model (build_prompt (pyStrip s))
      (List.replicate n (Attempt.reply (some t)))).1 = .obj NF ∧
      NF.getKey sourcesK = some placeholderSources := by
    by_cases ht : pyTruthy (.obj pfs) = true
    · cases n with
      | zero =>
        rw [call_model, show List.replicate 0 (Attempt.reply (some t)) = ([] : List Attempt) from rfl]
        rw [show call_model_go ([] : List Attempt) none
          = (dumps (invoker_fallback none), false) from rfl]
        refine ⟨invoker_fields none, ?_, by decide⟩
        rw [show (dumps (invoker_fallback none), false).1
          = dumps (invoker_fallback none) from rfl, normalize_dumps_invoker]
        rfl
      | succ m =>
        rw [call_model, List.replicate_succ,
          call_model_truthy_step t _ none (.obj pfs) hx ht]
        obtain ⟨bfs, hbf, hbfbad⟩ := backfill_sources_bad pfs hbad
        have hwfb : wfJ (.obj bfs) = true := by
          rw [← hbf]
          exact backfill_wf _ (extract_wf _ _ hx)
        rw [show ((dumps (backfill (Json.obj pfs)), true)).1
          = dumps (backfill (Json.obj pfs)) from rfl, hbf,
          normalize_dumps_bad_sources bfs hwfb hbfbad]
        exact ⟨_, rfl, getKey_setKey_self bfs sourcesK placeholderSources⟩
    · rw [call_model, call_model_go_no_return _ none ?hno]
      case hno =>
        intro a ha
        have hmem := List.eq_of_mem_replicate ha
        refine ⟨t, hmem, Or.inr ?_⟩
        intro p hp
        rw [hx] at hp
        injection hp with hp2
        rw [← hp2]
        cases hpt : pyTruthy (Json.obj pfs)
        · rfl
        · exact absurd hpt ht
      refine ⟨invoker_fields none, ?_, by decide⟩
      rw [show (dumps (invoker_fallback none), false).1
        = dumps (invoker_fallback none) from rfl, normalize_dumps_invoker]
      rfl
  obtain ⟨NF, heqN, hgN⟩ := hNF
  simp only [analyze_result, Json.jGet, JObj.getKey]
  rw [if_neg (show ¬(conclusionK = sourcesK) by decide),
    if_neg (show ¬(explanationK = sourcesK) by decide), heqN]
  simp [hgN]

/-- Witness for C6: the upstream returns an object with a conclusion but
no sources key. -/
theorem c6_witness :
    ∃ b, (analyze (.cons textK (.str (s2c "ok")) .nil)
        (List.replicate 1 (Attempt.reply (some (s2c "\x7b\"conclusion\": \"x\"\x7d"))))
        true none (s2c "t")).resp = .ok (200, b) ∧
      b.jGet sourcesK = some placeholderSources :=
  c6_missing_sources_placeholder (.cons textK (.str (s2c "ok")) .nil) none
    (s2c "t") (s2c "ok") (s2c "\x7b\"conclusion\": \"x\"\x7d") 1
    (.cons (s2c "conclusion") (.str (s2c "x")) .nil)
    rfl (by decide) (by decide) (by decide)

theorem run_calls_aux : ∀ (specs : List CallSpec) (rows : List (List PyStr)),
    (∀ c ∈ specs, ∃ b, (analyze c.data c.attempts c.fsOk none c.now).resp = .ok (200, b)) →
    ∃ extra, run_calls specs (some rows) = some (rows ++ extra) ∧
      extra.length = specs.length ∧ ∀ r ∈ extra, r.length = 3 := by
  intro specs
  induction specs with
  | nil =>
    intro rows _
    exact ⟨[], by simp [run_calls], rfl, by simp⟩
  | cons c cs ih =>
    intro rows hall
    have hc2 : ∃ b, (analyze c.data c.attempts c.fsOk (some rows) c.now).resp
        = .ok (200, b) := by
      obtain ⟨b, hb⟩ := hall c (by simp)
      exact ⟨b, ((analyze_resp_indep c.data c.attempts c.fsOk (some rows) none c.now).1).trans hb⟩
    obtain ⟨row, hlen, hlog⟩ := analyze_200_log c.data c.attempts c.fsOk (some rows) c.now hc2
    simp only [run_calls]
    rw [hlog, show append_log (some rows) row = some (rows ++ [row]) from rfl]
    obtain ⟨extra, hrun, hel, h3⟩ := ih (rows ++ [row]) (fun d hd => hall d (by simp [hd]))
    refine ⟨[row] ++ extra, ?_, ?_, ?_⟩
    · rw [hrun, List.append_assoc]
    · simp [hel]
    · intro r hr
      rcases List.mem_append.mp hr with h1 | h2
      · rw [List.mem_singleton.mp h1]
        exact hlen
      · exact h3 r h2

/-- Claim C8: starting from no log file, the first successful endpoint
call writes the header row before its data row, and after N successfully
completed calls (N at least one; with zero calls no file exists yet) the
log contains exactly N + 1 rows — the header plus one data row per call —
each of exactly three columns. -/
theorem c8_log_rows (specs : List CallSpec) (hne : specs ≠ [])
    (hall : ∀ c ∈ specs, ∃ b, (analyze c.data c.attempts c.fsOk none c.now).resp
      = .ok (200, b)) :
    ∃ rows, run_calls specs none = some rows ∧
      rows.length = specs.length + 1 ∧
      rows.head? = some csvHeader ∧
      ∀ r ∈ rows, r.length = 3 := by
  cases specs with
  | nil => exact absurd rfl hne
  | cons c cs =>
    obtain ⟨row, hlen, hlog⟩ := analyze_200_log c.data c.attempts c.fsOk none c.now
      (hall c (by simp))
    simp only [run_calls]
    rw [hlog, show append_log none row = some [csvHeader, row] from rfl]
    obtain ⟨extra, hrun, hel, h3⟩ :=
      run_calls_aux cs [csvHeader, row] (fun d hd => hall d (by simp [hd]))
    refine ⟨[csvHeader, row] ++ extra, hrun, ?_, rfl, ?_⟩
    · simp [hel]
    · intro r hr
      rcases List.mem_append.mp hr with h1 | h2
      · rcases List.mem_cons.mp h1 with rfl | h1b
        · decide
        · rw [List.mem_singleton.mp h1b]
          exact hlen
      · exact h3 r h2

/-- Witness for C8: two successful calls starting from no file yield a
three-row log headed by the header row. -/
theorem c8_witness :
    ∃ rows, run_calls
        [{ data := .cons textK (.str (s2c "hi")) .nil, attempts := [],
           fsOk := true, now := s2c "t1" },
         { data := .cons textK (.str (s2c "hi")) .nil, attempts := [],
           fsOk := true, now := s2c "t2" }] none = some rows ∧
      rows.length = 2 + 1 ∧
      rows.head? = some csvHeader ∧
      ∀ r ∈ rows, r.length = 3 :=
  c8_log_rows _ (by simp)
    (by
      intro c hc
      rcases List.mem_cons.mp hc with rfl | hc2
      · exact ⟨analyze_result (s2c "hi") [], rfl⟩
      · rcases List.mem_cons.mp hc2 with rfl | hc3
        · exact ⟨analyze_result (s2c "hi") [], rfl⟩
        · exact absurd hc3 (List.not_mem_nil c))
